import Mathlib

/-!
Verification of the stde.pegen parser generator against its design
specification.

Part 1 embeds the generated-parser runtime of `src/pegen/parser_v2.py`:
the parser state (tokenizer position, packrat cache, debug level,
left-recursion counter, verbosity flag and log), the `memoize` decorator
and the `memoize_left_rec` decorator with its seed-and-grow loop.
Results of rule bodies are `Option T`: `none` is the `FAILURE` sentinel
(Python `None`), `some t` a match value.  Logging output is modelled as a
list of message strings; the exact message text is irrelevant to every
property proved here, so messages are fixed placeholder strings.
The Python cache is a dict; it is modelled as an association list where
insertion conses a binding that shadows older ones, which is
observationally equal to dict assignment through `cacheLookup`.
-/

/-- Cache key of the packrat cache: `(mark, method_name, args)` as built in
`memoize_wrapper` and `memoize_left_rec_wrapper` of parser_v2.py. -/
abbrev CacheKey : Type := Nat × String × List String

/-- Parser instance state shared by the decorators in parser_v2.py:
tokenizer index (`mark()`/`reset()` of DefaultParser delegate to it),
packrat `_cache`, `_level`, `in_recursive_rule`, `_verbose` and the verbose
output stream (modelled as an accumulated log). -/
structure PState (T : Type) where
  pos : Nat
  cache : List (CacheKey × (Option T × Nat))
  level : Int
  inRec : Int
  verbose : Bool
  log : List String

/-- Dict lookup in the packrat cache (`key in self._cache` / `self._cache[key]`). -/
def cacheLookup {T : Type} : List (CacheKey × (Option T × Nat)) → CacheKey → Option (Option T × Nat)
  | [], _ => none
  | (k, v) :: rest, key => if k = key then some v else cacheLookup rest key

/-- Dict assignment `self._cache[key] = value`; the new binding shadows any
older binding for the same key. -/
def cacheInsert {T : Type} (c : List (CacheKey × (Option T × Nat))) (key : CacheKey)
    (v : Option T × Nat) : List (CacheKey × (Option T × Nat)) :=
  (key, v) :: c

/-- The parser's `reset` (DefaultParser delegates to the tokenizer index). -/
def reset {T : Type} (s : PState T) (index : Nat) : PState T :=
  { s with pos := index }

/-- The `self._vprint(...)` calls: append a log line when verbose. -/
def vprint {T : Type} (s : PState T) (msg : String) : PState T :=
  if s.verbose then { s with log := s.log ++ [msg] } else s

/-- A rule body: a (generated) rule method, acting on the parser state and
returning a result (`none` = `FAILURE`). -/
abbrev RuleBody (T : Type) := PState T → Option T × PState T

/-- The `memoize` decorator of parser_v2.py (lines 49-83), specialised to a
method of the given name and argument tuple. -/
def memoize {T : Type} (name : String) (args : List String) (body : RuleBody T)
    (s : PState T) : Option T × PState T :=
  let mark := s.pos
  let key : CacheKey := (mark, name, args)
  match cacheLookup s.cache key with
  | some (tree, endmark) =>
    -- Fast path (cache hit, not verbose) or the verbose cache-hit branch:
    -- both restore the end mark and return the cached tree.
    if s.verbose then
      let s1 := vprint s "memo hit"
      (tree, reset s1 endmark)
    else
      (tree, reset s endmark)
  | none =>
    let s1 := vprint s "memo call"
    let s2 := { s1 with level := s1.level + 1 }
    let r := body s2
    let s3 := { r.2 with level := r.2.level - 1 }
    let s4 := vprint s3 "memo return"
    let endmark := s4.pos
    (r.1, { s4 with cache := cacheInsert s4.cache key (r.1, endmark) })

/-- Result of the seed-and-grow `while True:` loop in
`memoize_left_rec_wrapper` (lines 122-143): the final `lastresult` and
`lastmark`, the state after the loop, and the number of body invocations. -/
structure GrowResult (T : Type) where
  res : Option T
  resMark : Nat
  st : PState T
  iters : Nat

/-- One iteration of the `while True:` loop (lines 123-134): reset to the
start mark, bump `in_recursive_rule`, run the body, undo the bump, log.
The end mark of the iteration is the position of the returned state. -/
def growIter {T : Type} (body : RuleBody T) (mark : Nat) (s : PState T) :
    Option T × PState T :=
  let s1 := { s with pos := mark, inRec := s.inRec + 1 }
  let r := body s1
  let s2 := { r.2 with inRec := r.2.inRec - 1 }
  (r.1, vprint s2 "Recursive depth")

/-- The `while True:` loop of `memoize_left_rec_wrapper` (lines 122-143),
with explicit fuel (`none` = the loop was cut off by exhausted fuel; the
Python loop would still be running). -/
def growLoop {T : Type} (name : String) (body : RuleBody T) (mark : Nat) :
    Nat → Option T → Nat → PState T → Option (GrowResult T)
  | 0, _, _, _ => none
  | fuel + 1, lastresult, lastmark, s =>
    let r := growIter body mark s
    let st := r.2
    let endmark := st.pos
    match r.1 with
    | none => some ⟨lastresult, lastmark, vprint st "Fail", 1⟩
    | some t =>
      if endmark ≤ lastmark then
        some ⟨lastresult, lastmark, vprint st "Bailing", 1⟩
      else
        match growLoop name body mark fuel (some t) endmark
            { st with cache := cacheInsert st.cache (mark, name, []) (some t, endmark) } with
        | none => none
        | some g => some { g with iters := g.iters + 1 }

/-- State just before the seed-and-grow loop of `memoize_left_rec_wrapper`
(lines 102-120): log, bump the level, prime the cache with a failure, log. -/
def lrSeedState {T : Type} (name : String) (s : PState T) : PState T :=
  let s1 := vprint s "lr call"
  let s2 := { s1 with level := s1.level + 1 }
  let s3 := { s2 with cache := cacheInsert s2.cache (s.pos, name, []) (none, s.pos) }
  vprint s3 "Recursive at mark depth 0"

/-- Post-loop assembly of `memoize_left_rec_wrapper` (lines 145-156): reset
to the last recorded end mark, unbump the level, log, then cache the final
result with its end mark — the current position on success, the start mark
on failure (also resetting there). -/
def lrFinish {T : Type} (name : String) (mark : Nat) (g : GrowResult T) :
    Option T × PState T :=
  let s5 := reset g.st g.resMark
  let tree := g.res
  let s6 := { s5 with level := s5.level - 1 }
  let s7 := vprint s6 "lr cached"
  match tree with
  | some _ =>
    (tree, { s7 with cache := cacheInsert s7.cache (mark, name, []) (tree, s7.pos) })
  | none =>
    let s8 := reset s7 mark
    (tree, { s8 with cache := cacheInsert s8.cache (mark, name, []) (tree, mark) })

/-- The `memoize_left_rec` decorator of parser_v2.py (lines 86-165),
specialised to a method of the given name (argument tuple is `()`).
`none` means the fuel for the inner loop ran out. -/
def memoizeLeftRec {T : Type} (fuel : Nat) (name : String) (body : RuleBody T)
    (s : PState T) : Option (Option T × PState T) :=
  let mark := s.pos
  let key : CacheKey := (mark, name, [])
  match cacheLookup s.cache key with
  | some (tree, endmark) =>
    if s.verbose then
      -- Verbose cache-hit branch (lines 157-163): resets only on success.
      let s1 := vprint s "cached fresh"
      match tree with
      | some _ => some (tree, reset s1 endmark)
      | none => some (tree, s1)
    else
      some (tree, reset s endmark)
  | none =>
    match growLoop name body mark fuel none mark (lrSeedState name s) with
    | none => none
    | some g => some (lrFinish name mark g)

/-- Specification-side seed-and-grow loop, written from the spec's wording
(§4.6 "Left-recursion seed-and-grow", step 2): reset to the start mark, run
the body, stop on failure or when the end mark fails to grow, otherwise
record the new result and end mark in the cache and continue. -/
def seedGrowSpec {T : Type} (body : RuleBody T) (mark : Nat) (key : CacheKey) :
    Nat → Option T → Nat → PState T → Option (Option T × Nat × PState T)
  | 0, _, _, _ => none
  | fuel + 1, last, lastEnd, s =>
    let s0 := { s with pos := mark }
    let r := body s0
    let st := r.2
    let e := st.pos
    match r.1 with
    | none => some (last, lastEnd, st)
    | some t =>
      if e ≤ lastEnd then some (last, lastEnd, st)
      else
        seedGrowSpec body mark key fuel (some t) e
          { st with cache := cacheInsert st.cache key (some t, e) }

/-- Specification-side left-recursion protocol, written from the spec's
wording (§4.6, steps 1-3): seed the cache entry for the current mark with
FAILURE, run the grow loop, return the last successful result with the
position at its end mark (at the start mark when no iteration succeeded). -/
def memoizeLeftRecSpec {T : Type} (fuel : Nat) (name : String) (body : RuleBody T)
    (s : PState T) : Option (Option T × PState T) :=
  let seeded := { s with cache := cacheInsert s.cache (s.pos, name, []) (none, s.pos) }
  match seedGrowSpec body s.pos (s.pos, name, []) fuel none s.pos seeded with
  | none => none
  | some (last, lastEnd, s2) =>
    match last with
    | some t => some (some t, { s2 with pos := lastEnd })
    | none => some (none, { s2 with pos := s.pos })

/-- Agreement of two parser states on the observables the parse depends on:
tokenizer position and packrat cache (debug level, recursion counter,
verbosity and log are logging machinery). -/
def ObsAgree {T : Type} (s t : PState T) : Prop :=
  s.pos = t.pos ∧ s.cache = t.cache

/-- A rule body is regular when its result value and its effect on position
and cache depend only on position and cache (generated rule methods read
the other fields only for logging and error reporting). -/
def Regular {T : Type} (body : RuleBody T) : Prop :=
  ∀ s t, ObsAgree s t → (body s).1 = (body t).1 ∧ ObsAgree (body s).2 (body t).2

/-- Two states that are equal except for the verbosity flag and the log. -/
def ExceptVerbose {T : Type} (s t : PState T) : Prop :=
  s.pos = t.pos ∧ s.cache = t.cache ∧ s.level = t.level ∧ s.inRec = t.inRec

/-! Small facts about the state helpers. -/

@[simp]
theorem vprint_pos {T : Type} (s : PState T) (m : String) : (vprint s m).pos = s.pos := by
  unfold vprint; split <;> rfl

@[simp]
theorem vprint_cache {T : Type} (s : PState T) (m : String) : (vprint s m).cache = s.cache := by
  unfold vprint; split <;> rfl

@[simp]
theorem vprint_level {T : Type} (s : PState T) (m : String) : (vprint s m).level = s.level := by
  unfold vprint; split <;> rfl

@[simp]
theorem vprint_inRec {T : Type} (s : PState T) (m : String) : (vprint s m).inRec = s.inRec := by
  unfold vprint; split <;> rfl

@[simp]
theorem vprint_verbose {T : Type} (s : PState T) (m : String) :
    (vprint s m).verbose = s.verbose := by
  unfold vprint; split <;> rfl

@[simp]
theorem reset_pos {T : Type} (s : PState T) (i : Nat) : (reset s i).pos = i := rfl

@[simp]
theorem reset_cache {T : Type} (s : PState T) (i : Nat) : (reset s i).cache = s.cache := rfl

@[simp]
theorem reset_verbose {T : Type} (s : PState T) (i : Nat) : (reset s i).verbose = s.verbose := rfl

@[simp]
theorem reset_level {T : Type} (s : PState T) (i : Nat) : (reset s i).level = s.level := rfl

@[simp]
theorem reset_inRec {T : Type} (s : PState T) (i : Nat) : (reset s i).inRec = s.inRec := rfl

@[simp]
theorem cacheLookup_insert_self {T : Type} (c : List (CacheKey × (Option T × Nat)))
    (k : CacheKey) (v : Option T × Nat) : cacheLookup (cacheInsert c k v) k = some v := by
  simp [cacheInsert, cacheLookup]

/-- C4. For every memoized rule invocation that fails, the cache entry
recorded for it has end mark equal to the start mark, and the tokenizer
position after the failed call equals the position before the call.
Hypotheses: the rule body restores the position when it fails (generated
rule bodies reset to their start mark before returning FAILURE, §4.6), and
any failure entry already cached for this key records the key's own mark
(the invariant the recording direction itself establishes). -/
theorem memoize_failure_no_advance {T : Type} (name : String) (args : List String)
    (body : RuleBody T) (s : PState T)
    (hfail : ∀ s', (body s').1 = none → (body s').2.pos = s'.pos)
    (hinv : ∀ e, cacheLookup s.cache (s.pos, name, args) = some (none, e) → e = s.pos)
    (hres : (memoize name args body s).1 = none) :
    (memoize name args body s).2.pos = s.pos ∧
      cacheLookup (memoize name args body s).2.cache (s.pos, name, args) =
        some (none, s.pos) := by
  rcases h : cacheLookup s.cache (s.pos, name, args) with _ | ⟨tree, e⟩
  · -- cache miss: the body runs and its (failing) end position is recorded
    have hbody : (body { vprint s "memo call" with
        level := (vprint s "memo call").level + 1 }).1 = none := by
      have := hres
      simp only [memoize, h] at this
      exact this
    have hpos := hfail _ hbody
    constructor
    · simp only [memoize, h]
      simpa using hpos
    · simp only [memoize, h, cacheLookup_insert_self]
      simp only [hbody]
      congr 2
      simpa using hpos
  · -- cache hit: the stored failure entry has end mark equal to the mark
    have htree : tree = none := by
      have := hres
      simp only [memoize, h] at this
      by_cases hv : s.verbose <;> simp [hv] at this <;> exact this
    subst htree
    have he : e = s.pos := hinv e h
    subst he
    constructor
    · simp only [memoize, h]
      by_cases hv : s.verbose <;> simp [hv]
    · simp only [memoize, h]
      by_cases hv : s.verbose <;> simp [hv, h]

/-- C4 witness: a concrete failing body at a concrete state. -/
theorem memoize_failure_no_advance_witness :
    (memoize "r" [] (fun (s : PState Nat) => (none, s)) ⟨2, [], 0, 0, false, []⟩).2.pos = 2 ∧
      cacheLookup
        (memoize "r" [] (fun (s : PState Nat) => (none, s)) ⟨2, [], 0, 0, false, []⟩).2.cache
        (2, "r", []) = some (none, 2) :=
  memoize_failure_no_advance "r" [] (fun s => (none, s)) ⟨2, [], 0, 0, false, []⟩
    (fun _ h => by simp) (fun e h => by simp [cacheLookup] at h) (by decide)

/-- C3. For every memoized rule method, parser state and mark: a cache-miss
call is observationally equal to the unmemoized rule body (same result
value, same end position; only logging differs), and running the method a
second time at the same mark — the second call hits the cache — yields the
same result value and leaves the tokenizer at the same position as the
first call.  Hypothesis: the rule body's observable behaviour depends only
on position and cache (`Regular`). -/
theorem memoize_transparent {T : Type} (name : String) (args : List String)
    (body : RuleBody T) (hreg : Regular body) (s : PState T) :
    (cacheLookup s.cache (s.pos, name, args) = none →
      (memoize name args body s).1 = (body s).1 ∧
        (memoize name args body s).2.pos = (body s).2.pos) ∧
    (memoize name args body (reset (memoize name args body s).2 s.pos)).1 =
        (memoize name args body s).1 ∧
      (memoize name args body (reset (memoize name args body s).2 s.pos)).2.pos =
        (memoize name args body s).2.pos := by
  rcases h : cacheLookup s.cache (s.pos, name, args) with _ | ⟨tree, e⟩
  · -- cache miss on the first call
    have hobs : ObsAgree { vprint s "memo call" with
        level := (vprint s "memo call").level + 1 } s := by
      constructor <;> simp
    have hval := (hreg _ s hobs).1
    have hpos := (hreg _ s hobs).2.1
    refine ⟨fun _ => ?_, ?_, ?_⟩
    · constructor
      · simp only [memoize, h]
        exact hval
      · simp only [memoize, h]
        simpa using hpos
    · -- second call: the freshly recorded entry is found
      simp only [memoize, h]
      simp [cacheLookup_insert_self, memoize]
      split <;> simp
    · simp only [memoize, h]
      simp [cacheLookup_insert_self, memoize]
      split <;> simp
  · -- cache hit on the first call: the second call hits the same entry
    refine ⟨fun hmiss => ?_, ?_, ?_⟩
    · simp at hmiss
    · simp only [memoize, h]
      by_cases hv : s.verbose <;> simp [hv, memoize, h]
    · simp only [memoize, h]
      by_cases hv : s.verbose <;> simp [hv, memoize, h]

/-- Concrete regular rule body used by witnesses: match one token, return 7. -/
def w3body : RuleBody Nat := fun s => (some 7, reset s (s.pos + 1))

/-- Concrete initial parser state used by witnesses. -/
def w3s : PState Nat := ⟨0, [], 0, 0, false, []⟩

/-- C3 witness: the transparency theorem applied to a concrete body and state. -/
theorem memoize_transparent_witness :
    (cacheLookup w3s.cache (w3s.pos, "r", []) = none →
      (memoize "r" [] w3body w3s).1 = (w3body w3s).1 ∧
        (memoize "r" [] w3body w3s).2.pos = (w3body w3s).2.pos) ∧
    (memoize "r" [] w3body (reset (memoize "r" [] w3body w3s).2 w3s.pos)).1 =
        (memoize "r" [] w3body w3s).1 ∧
      (memoize "r" [] w3body (reset (memoize "r" [] w3body w3s).2 w3s.pos)).2.pos =
        (memoize "r" [] w3body w3s).2.pos :=
  memoize_transparent "r" [] w3body
    (fun s t h => ⟨rfl, by simp [w3body, reset, h.1], by simp [w3body, reset, h.2]⟩) w3s

/-- Iteration-count lemma for the grow loop: the number of body invocations
plus the starting end mark stays at most `L + 1` when every body invocation
ends at a position of at most `L`. -/
theorem growLoop_iters_le {T : Type} (L : Nat) (name : String) (body : RuleBody T)
    (mark : Nat) (hb : ∀ s', ((body s').2).pos ≤ L) :
    ∀ (fuel : Nat) (lastresult : Option T) (lastmark : Nat) (s : PState T)
      (g : GrowResult T),
      growLoop name body mark fuel lastresult lastmark s = some g →
      lastmark ≤ L → g.iters + lastmark ≤ L + 1 := by
  intro fuel
  induction fuel with
  | zero =>
    intro _ _ _ _ hG
    simp [growLoop] at hG
  | succ n ih =>
    intro lastresult lastmark s g hG h1
    have hend : ((growIter body mark s).2).pos ≤ L := by
      simpa [growIter] using hb { s with pos := mark, inRec := s.inRec + 1 }
    simp only [growLoop] at hG
    split at hG
    · cases hG
      simp only [GrowResult.iters]
      omega
    · split at hG
      · cases hG
        simp only [GrowResult.iters]
        omega
      · rename_i hle
        split at hG
        · cases hG
        · rename_i g0 hrec
          cases hG
          have hih := ih _ _ _ _ hrec hend
          simp only [GrowResult.iters] at hih ⊢
          omega

/-- Fuel-exhaustion lemma for the grow loop: running out of fuel means the
fuel plus the starting end mark was at most `L`. -/
theorem growLoop_none_le {T : Type} (L : Nat) (name : String) (body : RuleBody T)
    (mark : Nat) (hb : ∀ s', ((body s').2).pos ≤ L) :
    ∀ (fuel : Nat) (lastresult : Option T) (lastmark : Nat) (s : PState T),
      growLoop name body mark fuel lastresult lastmark s = none →
      lastmark ≤ L → fuel + lastmark ≤ L := by
  intro fuel
  induction fuel with
  | zero =>
    intro _ lastmark _ _ h1
    omega
  | succ n ih =>
    intro lastresult lastmark s hG h1
    have hend : ((growIter body mark s).2).pos ≤ L := by
      simpa [growIter] using hb { s with pos := mark, inRec := s.inRec + 1 }
    simp only [growLoop] at hG
    split at hG
    · cases hG
    · split at hG
      · cases hG
      · rename_i hle
        split at hG
        · rename_i hrec
          have hih := ih _ _ _ hrec hend
          omega
        · cases hG

/-- C2. For every left-recursive leader rule and finite input: when body
invocations always end at a position of at most the input length `L` and
the start mark is at most `L`, the seed-and-grow loop (entered as
`memoize_left_rec` enters it: `lastresult, lastmark = None, mark`)
terminates within fuel `L + 1` and runs the rule body at most `1 + L`
times; on every non-final iteration the end mark strictly exceeds the
previously recorded one — this is the loop's continuation condition
(`growLoop` recurses only when `endmark > lastmark`), which is what drives
the bound. -/
theorem seed_and_grow_terminates {T : Type} (L : Nat) (name : String) (body : RuleBody T)
    (mark : Nat) (s : PState T) (hb : ∀ s', ((body s').2).pos ≤ L) (hm : mark ≤ L) :
    ∃ g, growLoop name body mark (L + 1) none mark s = some g ∧ g.iters ≤ 1 + L := by
  rcases hG : growLoop name body mark (L + 1) none mark s with _ | g
  · have := growLoop_none_le L name body mark hb (L + 1) none mark s hG hm
    omega
  · have := growLoop_iters_le L name body mark hb (L + 1) none mark s g hG hm
    exact ⟨g, rfl, by omega⟩

/-- C2 witness: a concrete body that always ends at position 3 (input
length 3): the loop finishes and runs the body at most 4 times. -/
theorem seed_and_grow_terminates_witness :
    ∃ g, growLoop "r" (fun (s : PState Nat) => (some 0, reset s 3)) 0 4 none 0
        ⟨0, [], 0, 0, false, []⟩ = some g ∧ g.iters ≤ 1 + 3 :=
  seed_and_grow_terminates 3 "r" (fun s => (some 0, reset s 3)) 0 ⟨0, [], 0, 0, false, []⟩
    (fun s' => by simp) (by omega)

/-- Correspondence between a code-side grow-loop outcome and a spec-side
seed-and-grow outcome: same termination, same final result and end mark,
and observably agreeing states. -/
def GrowSpecMatch {T : Type} :
    Option (GrowResult T) → Option (Option T × Nat × PState T) → Prop
  | none, none => True
  | some g, some (r, m, sb) => g.res = r ∧ g.resMark = m ∧ ObsAgree g.st sb
  | _, _ => False

/-- The code-side grow loop and the spec-side seed-and-grow loop agree step
by step on observably agreeing states, for a regular rule body. -/
theorem growLoop_spec_agree {T : Type} (name : String) (body : RuleBody T)
    (hreg : Regular body) (mark : Nat) :
    ∀ (fuel : Nat) (lr : Option T) (lm : Nat) (sa sb : PState T), ObsAgree sa sb →
      GrowSpecMatch (growLoop name body mark fuel lr lm sa)
        (seedGrowSpec body mark (mark, name, []) fuel lr lm sb) := by
  intro fuel
  induction fuel with
  | zero =>
    intro lr lm sa sb _
    simp only [growLoop, seedGrowSpec, GrowSpecMatch]
  | succ n ih =>
    intro lr lm sa sb hab
    have hobs : ObsAgree { sa with pos := mark, inRec := sa.inRec + 1 }
        { sb with pos := mark } := ⟨rfl, hab.2⟩
    have hIv : (growIter body mark sa).1 = (body { sb with pos := mark }).1 := by
      simpa [growIter] using (hreg _ _ hobs).1
    have hIp : ((growIter body mark sa).2).pos = ((body { sb with pos := mark }).2).pos := by
      simpa [growIter] using (hreg _ _ hobs).2.1
    have hIc : ((growIter body mark sa).2).cache = ((body { sb with pos := mark }).2).cache := by
      simpa [growIter] using (hreg _ _ hobs).2.2
    simp only [growLoop, seedGrowSpec]
    rcases hua : (growIter body mark sa).1 with _ | t
    · have hub : (body { sb with pos := mark }).1 = none := by rw [← hIv, hua]
      rw [hub]
      exact ⟨rfl, rfl, by simpa using hIp, by simpa using hIc⟩
    · have hub : (body { sb with pos := mark }).1 = some t := by rw [← hIv, hua]
      rw [hub, ← hIp]
      by_cases hle : ((growIter body mark sa).2).pos ≤ lm
      · simp only [hle, if_true, ite_true]
        exact ⟨rfl, rfl, by simpa using hIp, by simpa using hIc⟩
      · simp only [hle, if_false, ite_false]
        have hobs' : ObsAgree
            (⟨((growIter body mark sa).2).pos,
              cacheInsert ((growIter body mark sa).2).cache (mark, name, [])
                (some t, ((growIter body mark sa).2).pos),
              ((growIter body mark sa).2).level, ((growIter body mark sa).2).inRec,
              ((growIter body mark sa).2).verbose, ((growIter body mark sa).2).log⟩ : PState T)
            (⟨((growIter body mark sa).2).pos,
              cacheInsert ((body { sb with pos := mark }).2).cache (mark, name, [])
                (some t, ((growIter body mark sa).2).pos),
              ((body { sb with pos := mark }).2).level, ((body { sb with pos := mark }).2).inRec,
              ((body { sb with pos := mark }).2).verbose,
              ((body { sb with pos := mark }).2).log⟩ : PState T) := by
          exact ⟨rfl, by simp [hIc]⟩
        have hrec := ih (some t) ((growIter body mark sa).2).pos _ _ hobs'
        rcases hG : growLoop name body mark n (some t) ((growIter body mark sa).2).pos
            (⟨((growIter body mark sa).2).pos,
              cacheInsert ((growIter body mark sa).2).cache (mark, name, [])
                (some t, ((growIter body mark sa).2).pos),
              ((growIter body mark sa).2).level, ((growIter body mark sa).2).inRec,
              ((growIter body mark sa).2).verbose,
              ((growIter body mark sa).2).log⟩ : PState T) with _ | g <;>
          rcases hS : seedGrowSpec body mark (mark, name, []) n (some t)
              ((growIter body mark sa).2).pos
              (⟨((growIter body mark sa).2).pos,
                cacheInsert ((body { sb with pos := mark }).2).cache (mark, name, [])
                  (some t, ((growIter body mark sa).2).pos),
                ((body { sb with pos := mark }).2).level,
                ((body { sb with pos := mark }).2).inRec,
                ((body { sb with pos := mark }).2).verbose,
                ((body { sb with pos := mark }).2).log⟩ : PState T) with _ | p <;>
          rw [hG, hS] at hrec
        · simp [GrowSpecMatch]
        · exact absurd hrec (by simp [GrowSpecMatch])
        · exact absurd hrec (by simp [GrowSpecMatch])
        · rcases p with ⟨r, m, sbf⟩
          simp only [GrowSpecMatch] at hrec ⊢
          exact ⟨hrec.1, hrec.2.1, hrec.2.2⟩

@[simp]
theorem lrSeedState_pos {T : Type} (name : String) (s : PState T) :
    (lrSeedState name s).pos = s.pos := by
  simp [lrSeedState]

@[simp]
theorem lrSeedState_cache {T : Type} (name : String) (s : PState T) :
    (lrSeedState name s).cache = cacheInsert s.cache (s.pos, name, []) (none, s.pos) := by
  simp [lrSeedState]

/-- C1. For every left-recursive leader rule method invoked at a mark with
no cache entry: the protocol first seeds the cache entry for (mark, rule)
with FAILURE, then repeatedly resets to the start mark and runs the rule
body, stopping exactly when the body's result is a failure or its end mark
is at most the previous recorded end mark, otherwise overwriting the cache
entry with the new result and end mark and continuing; the return value is
the last successful result, with the tokenizer at that result's end mark
(at the start mark if no iteration succeeded).  Stated as: `memoize_left_rec`
returns the same result value and final position as the function
`memoizeLeftRecSpec` written from the spec's wording (which seeds, grows
and finishes exactly as the claim describes).  Hypothesis: the rule body is
`Regular` (its observable behaviour depends only on position and cache). -/
theorem memoize_left_rec_follows_spec {T : Type} (fuel : Nat) (name : String)
    (body : RuleBody T) (hreg : Regular body) (s : PState T)
    (hmiss : cacheLookup s.cache (s.pos, name, []) = none) :
    Option.map (fun p => (p.1, p.2.pos)) (memoizeLeftRec fuel name body s) =
      Option.map (fun p => (p.1, p.2.pos)) (memoizeLeftRecSpec fuel name body s) := by
  have hobs : ObsAgree (lrSeedState name s)
      { s with cache := cacheInsert s.cache (s.pos, name, []) (none, s.pos) } := by
    exact ⟨by simp, by simp⟩
  have hrec := growLoop_spec_agree name body hreg s.pos fuel none s.pos
    (lrSeedState name s)
    { s with cache := cacheInsert s.cache (s.pos, name, []) (none, s.pos) } hobs
  simp only [memoizeLeftRec, memoizeLeftRecSpec, hmiss]
  rcases hG : growLoop name body s.pos fuel none s.pos (lrSeedState name s) with _ | g
  · rw [hG] at hrec
    rcases hS : seedGrowSpec body s.pos (s.pos, name, []) fuel none s.pos
        { s with cache := cacheInsert s.cache (s.pos, name, []) (none, s.pos) } with _ | p
    · simp
    · rw [hS] at hrec
      exact absurd hrec (by simp [GrowSpecMatch])
  · rw [hG] at hrec
    rcases hS : seedGrowSpec body s.pos (s.pos, name, []) fuel none s.pos
        { s with cache := cacheInsert s.cache (s.pos, name, []) (none, s.pos) } with _ | p
    · rw [hS] at hrec
      exact absurd hrec (by simp [GrowSpecMatch])
    · rw [hS] at hrec
      rcases p with ⟨last, lastEnd, s2⟩
      simp only [GrowSpecMatch] at hrec
      obtain ⟨hres, hmark, _⟩ := hrec
      rcases hlast : last with _ | t
      · subst hlast
        simp only [lrFinish, hres]
        simp [hres]
      · subst hlast
        simp only [lrFinish, hres]
        simp [hres, hmark]

/-- Concrete regular body and state for the C1 witness. -/
def w1body : RuleBody Nat := fun s => (some 1, reset s 1)

/-- C1 witness: the refinement theorem applied to a concrete body and state. -/
theorem memoize_left_rec_follows_spec_witness :
    Option.map (fun p => (p.1, p.2.pos)) (memoizeLeftRec 2 "e" w1body ⟨0, [], 0, 0, false, []⟩) =
      Option.map (fun p => (p.1, p.2.pos))
        (memoizeLeftRecSpec 2 "e" w1body ⟨0, [], 0, 0, false, []⟩) :=
  memoize_left_rec_follows_spec 2 "e" w1body
    (fun s t h => ⟨rfl, rfl, by simp [w1body, reset, h.2]⟩) ⟨0, [], 0, 0, false, []⟩ rfl

/-- Correspondence between two code-side grow-loop outcomes: same
termination, same result and end mark, observably agreeing states. -/
def GrowMatch {T : Type} : Option (GrowResult T) → Option (GrowResult T) → Prop
  | none, none => True
  | some g, some h => g.res = h.res ∧ g.resMark = h.resMark ∧ ObsAgree g.st h.st
  | _, _ => False

/-- The grow loop started in observably agreeing states produces observably
agreeing outcomes, for a regular rule body. -/
theorem growLoop_agree {T : Type} (name : String) (body : RuleBody T)
    (hreg : Regular body) (mark : Nat) :
    ∀ (fuel : Nat) (lr : Option T) (lm : Nat) (sa sb : PState T), ObsAgree sa sb →
      GrowMatch (growLoop name body mark fuel lr lm sa)
        (growLoop name body mark fuel lr lm sb) := by
  intro fuel
  induction fuel with
  | zero =>
    intro lr lm sa sb _
    simp only [growLoop, GrowMatch]
  | succ n ih =>
    intro lr lm sa sb hab
    have hobs : ObsAgree { sa with pos := mark, inRec := sa.inRec + 1 }
        { sb with pos := mark, inRec := sb.inRec + 1 } := ⟨rfl, hab.2⟩
    have hIv : (growIter body mark sa).1 = (growIter body mark sb).1 := by
      simpa [growIter] using (hreg _ _ hobs).1
    have hIp : ((growIter body mark sa).2).pos = ((growIter body mark sb).2).pos := by
      simpa [growIter] using (hreg _ _ hobs).2.1
    have hIc : ((growIter body mark sa).2).cache = ((growIter body mark sb).2).cache := by
      simpa [growIter] using (hreg _ _ hobs).2.2
    simp only [growLoop]
    rcases hua : (growIter body mark sa).1 with _ | t
    · have hub : (growIter body mark sb).1 = none := by rw [← hIv, hua]
      rw [hub]
      exact ⟨rfl, rfl, by simpa using hIp, by simpa using hIc⟩
    · have hub : (growIter body mark sb).1 = some t := by rw [← hIv, hua]
      rw [hub, ← hIp]
      by_cases hle : ((growIter body mark sa).2).pos ≤ lm
      · simp only [hle, if_true, ite_true]
        exact ⟨rfl, rfl, by simpa using hIp, by simpa using hIc⟩
      · simp only [hle, if_false, ite_false]
        have hobs' : ObsAgree
            (⟨((growIter body mark sa).2).pos,
              cacheInsert ((growIter body mark sa).2).cache (mark, name, [])
                (some t, ((growIter body mark sa).2).pos),
              ((growIter body mark sa).2).level, ((growIter body mark sa).2).inRec,
              ((growIter body mark sa).2).verbose, ((growIter body mark sa).2).log⟩ : PState T)
            (⟨((growIter body mark sa).2).pos,
              cacheInsert ((growIter body mark sb).2).cache (mark, name, [])
                (some t, ((growIter body mark sa).2).pos),
              ((growIter body mark sb).2).level, ((growIter body mark sb).2).inRec,
              ((growIter body mark sb).2).verbose,
              ((growIter body mark sb).2).log⟩ : PState T) := by
          exact ⟨rfl, by simp [hIc]⟩
        have hrec := ih (some t) ((growIter body mark sa).2).pos _ _ hobs'
        rcases hG : growLoop name body mark n (some t) ((growIter body mark sa).2).pos
            (⟨((growIter body mark sa).2).pos,
              cacheInsert ((growIter body mark sa).2).cache (mark, name, [])
                (some t, ((growIter body mark sa).2).pos),
              ((growIter body mark sa).2).level, ((growIter body mark sa).2).inRec,
              ((growIter body mark sa).2).verbose,
              ((growIter body mark sa).2).log⟩ : PState T) with _ | g <;>
          rcases hS : growLoop name body mark n (some t) ((growIter body mark sa).2).pos
              (⟨((growIter body mark sa).2).pos,
                cacheInsert ((growIter body mark sb).2).cache (mark, name, [])
                  (some t, ((growIter body mark sa).2).pos),
                ((growIter body mark sb).2).level,
                ((growIter body mark sb).2).inRec,
                ((growIter body mark sb).2).verbose,
                ((growIter body mark sb).2).log⟩ : PState T) with _ | h <;>
          rw [hG, hS] at hrec
        · simp [GrowMatch]
        · exact absurd hrec (by simp [GrowMatch])
        · exact absurd hrec (by simp [GrowMatch])
        · simp only [GrowMatch] at hrec ⊢
          exact ⟨hrec.1, hrec.2.1, hrec.2.2⟩

@[simp]
theorem lrFinish_fst {T : Type} (name : String) (mark : Nat) (g : GrowResult T) :
    (lrFinish name mark g).1 = g.res := by
  rcases hr : g.res with _ | t <;> simp [lrFinish, hr]

theorem lrFinish_pos {T : Type} (name : String) (mark : Nat) (g : GrowResult T) :
    (lrFinish name mark g).2.pos = match g.res with
      | some _ => g.resMark
      | none => mark := by
  rcases hr : g.res with _ | t <;> simp [lrFinish, hr]

/-- C10. Verbosity does not interfere with parsing: for two parser states
that differ only in the verbosity flag (and accumulated log), a memoized
rule invocation and a left-recursive (seed-and-grow) rule invocation return
the same result value and leave the tokenizer at the same position.
Hypotheses: the rule body is `Regular`, and any cached failure entry at the
current key records the key's own mark (the invariant both decorators
establish when they record failures). -/
theorem verbosity_noninterference {T : Type} (fuel : Nat) (name : String)
    (args : List String) (body : RuleBody T) (hreg : Regular body)
    (s t : PState T) (hev : ExceptVerbose s t)
    (hinv : ∀ e, cacheLookup s.cache (s.pos, name, []) = some (none, e) → e = s.pos) :
    ((memoize name args body s).1 = (memoize name args body t).1 ∧
      (memoize name args body s).2.pos = (memoize name args body t).2.pos) ∧
    (match memoizeLeftRec fuel name body s, memoizeLeftRec fuel name body t with
     | some (v1, s'), some (v2, t') => v1 = v2 ∧ s'.pos = t'.pos
     | none, none => True
     | _, _ => False) := by
  obtain ⟨hpos, hcache, hlevel, hinRec⟩ := hev
  constructor
  · -- memoize
    rcases h : cacheLookup s.cache (s.pos, name, args) with _ | ⟨tree, e⟩
    · have h' : cacheLookup t.cache (t.pos, name, args) = none := by
        rw [← hpos, ← hcache, h]
      have hobs : ObsAgree
          { vprint s "memo call" with level := (vprint s "memo call").level + 1 }
          { vprint t "memo call" with level := (vprint t "memo call").level + 1 } :=
        ⟨by simpa using hpos, by simpa using hcache⟩
      have hv := (hreg _ _ hobs).1
      have hp := (hreg _ _ hobs).2.1
      constructor
      · simp only [memoize, h, h']
        exact hv
      · simp only [memoize, h, h']
        simpa using hp
    · have h' : cacheLookup t.cache (t.pos, name, args) = some (tree, e) := by
        rw [← hpos, ← hcache, h]
      constructor
      · simp only [memoize, h, h']
        by_cases hv1 : s.verbose <;> by_cases hv2 : t.verbose <;> simp [hv1, hv2]
      · simp only [memoize, h, h']
        by_cases hv1 : s.verbose <;> by_cases hv2 : t.verbose <;> simp [hv1, hv2]
  · -- memoize_left_rec
    rcases h : cacheLookup s.cache (s.pos, name, []) with _ | ⟨tree, e⟩
    · have h' : cacheLookup t.cache (s.pos, name, []) = none := by
        rw [← hcache]
        exact h
      have hobs : ObsAgree (lrSeedState name s) (lrSeedState name t) := by
        refine ⟨by simpa using hpos, ?_⟩
        simp [hcache, hpos]
      have hrec := growLoop_agree name body hreg s.pos fuel none s.pos
        (lrSeedState name s) (lrSeedState name t) hobs
      simp only [memoizeLeftRec, h, h', ← hpos]
      rcases hG : growLoop name body s.pos fuel none s.pos (lrSeedState name s) with _ | g <;>
        rcases hS : growLoop name body s.pos fuel none s.pos (lrSeedState name t) with _ | g2 <;>
        rw [hG, hS] at hrec
      · exact trivial
      · exact absurd hrec (by simp [GrowMatch])
      · exact absurd hrec (by simp [GrowMatch])
      · simp only [GrowMatch] at hrec
        obtain ⟨h1, h2, _⟩ := hrec
        rcases hgr : g.res with _ | v
        · have hgr2 : g2.res = none := by rw [← h1, hgr]
          simp [lrFinish_pos, hgr, hgr2, h2]
        · have hgr2 : g2.res = some v := by rw [← h1, hgr]
          simp [lrFinish_pos, hgr, hgr2, h2]
    · have h' : cacheLookup t.cache (s.pos, name, []) = some (tree, e) := by
        rw [← hcache]
        exact h
      rcases htree : tree with _ | v
      · have he : e = s.pos := hinv e (by rw [h, htree])
        simp only [memoizeLeftRec, ← hpos, h, h', htree]
        by_cases hv1 : s.verbose <;> by_cases hv2 : t.verbose <;>
          simp [hv1, hv2, he, hpos]
      · simp only [memoizeLeftRec, ← hpos, h, h', htree]
        by_cases hv1 : s.verbose <;> by_cases hv2 : t.verbose <;> simp [hv1, hv2]

/-- Concrete verbose state for the C10 witness. -/
def w10s : PState Nat := ⟨0, [], 0, 0, true, []⟩

/-- Concrete non-verbose state for the C10 witness. -/
def w10t : PState Nat := ⟨0, [], 0, 0, false, []⟩

/-- Concrete regular body for the C10 witness. -/
def w10body : RuleBody Nat := fun s => (some 5, reset s 1)

/-- C10 witness: non-interference applied to concrete verbose/non-verbose
states and a concrete body. -/
theorem verbosity_noninterference_witness :
    ((memoize "r" [] w10body w10s).1 = (memoize "r" [] w10body w10t).1 ∧
      (memoize "r" [] w10body w10s).2.pos = (memoize "r" [] w10body w10t).2.pos) ∧
    (match memoizeLeftRec 2 "r" w10body w10s, memoizeLeftRec 2 "r" w10body w10t with
     | some (v1, s'), some (v2, t') => v1 = v2 ∧ s'.pos = t'.pos
     | none, none => True
     | _, _ => False) :=
  verbosity_noninterference 2 "r" [] w10body
    (fun s t h => ⟨rfl, rfl, by simp [w10body, reset, h.2]⟩) w10s w10t
    ⟨rfl, rfl, rfl, rfl⟩ (fun e h => by simp [w10s, cacheLookup] at h)

/-!
Part 2 embeds the token-stream tokenizer of `src/stde/pegen/tokenizer.py`
(class `Tokenizer`): the lazy generator is a list of pending tokens, the
buffer `_tokens` a list, `_index` the cursor.  The `issued` field is
specification scaffolding only: it records the values `mark()` has
returned, so that claims about "marks previously issued by this instance"
can be stated; no operation reads it.  Verbose logging (`log`) is elided —
it writes to a stream and never affects tokens or positions.  Token type
codes are symbolic distinct naturals standing for the CPython `token`
module constants.
-/

/-- Token type code for NEWLINE. -/
def tokNEWLINE : Nat := 4

/-- Token type code for ERRORTOKEN. -/
def tokERRORTOKEN : Nat := 59

/-- Token type code for COMMENT. -/
def tokCOMMENT : Nat := 60

/-- Token type code for NL. -/
def tokNL : Nat := 61

/-- A lexical token: type code and spelling (other TokenInfo fields are not
consulted by the tokenizer's buffering and positioning logic). -/
structure Token where
  ttype : Nat
  string : String
deriving DecidableEq, Repr

/-- Python `str.isspace`: nonempty and all whitespace. -/
def strIsSpace (s : String) : Bool :=
  !s.data.isEmpty && s.data.all (fun c => c.isWhitespace)

/-- The token-stream tokenizer state (class `Tokenizer`). -/
structure Tokenizer where
  gen : List Token
  tokens : List Token
  index : Nat
  issued : List Nat
deriving DecidableEq, Repr

namespace Tokenizer

/-- Test `self._tokens and self._tokens[-1].type == token.NEWLINE`. -/
def lastIsNewline (toks : List Token) : Bool :=
  match toks.getLast? with
  | some lt => lt.ttype == tokNEWLINE
  | none => false

/-- The body of `peek`'s `while` loop (lines 121-135): pull tokens from the
generator, skipping NL/COMMENT, whitespace-only error tokens, and a NEWLINE
directly after a buffered NEWLINE, until one token is appended.  `none`
models the generator being exhausted (`next` raising StopIteration). -/
def fillBuffer : List Token → List Token → Option (List Token × List Token)
  | [], _ => none
  | tok :: rest, toks =>
    if tok.ttype = tokNL ∨ tok.ttype = tokCOMMENT then
      fillBuffer rest toks
    else if tok.ttype = tokERRORTOKEN ∧ strIsSpace tok.string then
      fillBuffer rest toks
    else if tok.ttype = tokNEWLINE ∧ lastIsNewline toks = true then
      fillBuffer rest toks
    else
      some (rest, toks ++ [tok])

/-- `peek` (lines 119-136): return the next valid token without advancing.
When the cursor sits at the end of the buffer, one more token is buffered
first (after which the `while` condition is false, since the buffer grew). -/
def peek (t : Tokenizer) : Option (Token × Tokenizer) :=
  if t.index = t.tokens.length then
    match fillBuffer t.gen t.tokens with
    | none => none
    | some (gen', toks') =>
      match toks'.get? t.index with
      | some tok => some (tok, { t with gen := gen', tokens := toks' })
      | none => none
  else
    match t.tokens.get? t.index with
    | some tok => some (tok, t)
    | none => none

/-- `getnext` (lines 110-117): `peek`, then advance the cursor. -/
def getnext (t : Tokenizer) : Option (Token × Tokenizer) :=
  match peek t with
  | none => none
  | some (tok, t') => some (tok, { t' with index := t'.index + 1 })

/-- `mark` (lines 171-172): return the cursor (recorded in the ghost
`issued` history for specification purposes). -/
def mark (t : Tokenizer) : Nat × Tokenizer :=
  (t.index, { t with issued := t.index :: t.issued })

/-- `reset` (lines 174-181): no-op when the argument equals the cursor;
otherwise assert `0 ≤ index ≤ len(tokens)` and move the cursor.  `none`
models the assertion failing. -/
def reset (t : Tokenizer) (index : Nat) : Option Tokenizer :=
  if index = t.index then some t
  else if index ≤ t.tokens.length then some { t with index := index }
  else none

/-- Well-formedness maintained by the tokenizer: the cursor is within the
buffer bound and every issued mark is within the buffer bound. -/
def WF (t : Tokenizer) : Prop :=
  t.index ≤ t.tokens.length ∧ ∀ m ∈ t.issued, m ≤ t.tokens.length

end Tokenizer

/-- C9 (amended). `reset(m)` succeeds and restores the position for every
`m` within the buffered range — in particular for every mark previously
issued by this instance (`mark()` then returns `m`, and when `m` points
into the buffer, `peek` returns the token buffered at `m`) — and fails
(assertion) exactly when `m` exceeds the number of buffered tokens; it
does not require `m` to have been issued. -/
theorem tokenizer_reset_characterization (t : Tokenizer) (h : Tokenizer.WF t) :
    (∀ m ∈ t.issued, ∃ t', Tokenizer.reset t m = some t' ∧
        t'.index = m ∧ t'.tokens = t.tokens ∧ t'.gen = t.gen ∧
        (Tokenizer.mark t').1 = m) ∧
    (∀ m, m ≤ t.tokens.length → ∃ t', Tokenizer.reset t m = some t' ∧ t'.index = m) ∧
    (∀ m, t.tokens.length < m → Tokenizer.reset t m = none) ∧
    (∀ m, m ∈ t.issued → ∀ hlt : m < t.tokens.length,
      ∃ t', Tokenizer.reset t m = some t' ∧
        Tokenizer.peek t' = some (t.tokens.get ⟨m, hlt⟩, t')) := by
  obtain ⟨hidx, hiss⟩ := h
  have hres : ∀ m, m ≤ t.tokens.length → ∃ t', Tokenizer.reset t m = some t' ∧
      t'.index = m ∧ t'.tokens = t.tokens ∧ t'.gen = t.gen := by
    intro m hm
    unfold Tokenizer.reset
    by_cases he : m = t.index
    · rw [if_pos he]
      exact ⟨t, rfl, he.symm, rfl, rfl⟩
    · rw [if_neg he, if_pos hm]
      exact ⟨_, rfl, rfl, rfl, rfl⟩
  refine ⟨?_, ?_, ?_, ?_⟩
  · intro m hm
    obtain ⟨t', h1, h2, h3, h4⟩ := hres m (hiss m hm)
    exact ⟨t', h1, h2, h3, h4, h2⟩
  · intro m hm
    obtain ⟨t', h1, h2, _, _⟩ := hres m hm
    exact ⟨t', h1, h2⟩
  · intro m hm
    unfold Tokenizer.reset
    rw [if_neg (by omega), if_neg (by omega)]
  · intro m hm hlt
    obtain ⟨t', h1, h2, h3, _⟩ := hres m (hiss m hm)
    refine ⟨t', h1, ?_⟩
    unfold Tokenizer.peek
    rw [if_neg (by rw [h2, h3]; omega), h3, h2]
    rw [List.get?_eq_get hlt]

/-- Fresh tokenizer over two tokens, for the C9 counterexample. -/
def w9t0 : Tokenizer := ⟨[⟨1, "a"⟩, ⟨tokNEWLINE, "nl"⟩], [], 0, []⟩

/-- The tokenizer after the first `getnext` (never calling `mark`). -/
def w9t1 : Tokenizer := ((Tokenizer.getnext w9t0).map Prod.snd).getD w9t0

/-- The tokenizer after the second `getnext` (never calling `mark`). -/
def w9t2 : Tokenizer := ((Tokenizer.getnext w9t1).map Prod.snd).getD w9t1

/-- C9 counterexample: after two `getnext` calls and no `mark` calls, the
position 1 was never issued by `mark()`, yet `reset(1)` succeeds — the
claim that `reset` fails for every mark not previously issued is false. -/
theorem tokenizer_reset_unissued_succeeds :
    (Tokenizer.getnext w9t0).isSome = true ∧
    (Tokenizer.getnext w9t1).isSome = true ∧
    w9t2.index = 2 ∧ w9t2.issued = [] ∧ ¬ (1 ∈ w9t2.issued) ∧
    (Tokenizer.reset w9t2 1).isSome = true := by
  decide

/-- Concrete tokenizer state with issued marks for the C9 witness. -/
def w9w : Tokenizer := ⟨[], [⟨1, "a"⟩, ⟨tokNEWLINE, "nl"⟩], 1, [0, 1]⟩

/-- C9 witness: the reset characterization applied to a concrete tokenizer
that issued the marks 0 and 1. -/
theorem tokenizer_reset_characterization_witness :
    (∀ m ∈ w9w.issued, ∃ t', Tokenizer.reset w9w m = some t' ∧
        t'.index = m ∧ t'.tokens = w9w.tokens ∧ t'.gen = w9w.gen ∧
        (Tokenizer.mark t').1 = m) ∧
    (∀ m, m ≤ w9w.tokens.length → ∃ t', Tokenizer.reset w9w m = some t' ∧ t'.index = m) ∧
    (∀ m, w9w.tokens.length < m → Tokenizer.reset w9w m = none) ∧
    (∀ m, m ∈ w9w.issued → ∀ hlt : m < w9w.tokens.length,
      ∃ t', Tokenizer.reset w9w m = some t' ∧
        Tokenizer.peek t' = some (w9w.tokens.get ⟨m, hlt⟩, t')) :=
  tokenizer_reset_characterization w9w (by constructor <;> decide)

/-!
Part 3 embeds the grammar representation of `src/stde/pegen/grammar.py`
and the analyses of `src/stde/pegen/legacy/parser_generator.py`.
Python grammar nodes are dynamically typed and the visitors dispatch on
the class name; the embedding mirrors this with a single inductive of all
node variants (`GNode`), including the list spines of `Rhs.alts` and
`Alt.items` (`AltsNil`/`AltsCons`, `ItemsNil`/`ItemsCons`), so that every
analysis is plain structural recursion.  `TLI` is `TopLevelItem` with its
mutable `nullable` flag; `Rule` flags live in `GRule`.  `stde/pegen/sccutils.py`
is not part of the sources; `strongly_connected_components` and
`find_cycles_in_scc` are modelled from the spec (§4.4) below.
-/

/-- A grammar node (grammar.py classes `NameLeaf`, `StringLeaf`, `Group`,
`Opt`, `Repeat0`, `Repeat1`, `Gather`, `PositiveLookahead`,
`NegativeLookahead`, `Forced`, `Cut`, `Rhs`, `Alt`, `TopLevelItem`).
`Rhs` holds a spine of `AltsCons`, `Alt` a spine of `ItemsCons`. -/
inductive GNode where
  | NameLeaf (value : String)
  | StringLeaf (value : String)
  | Group (rhs : GNode)
  | Opt (node : GNode)
  | Repeat0 (node : GNode)
  | Repeat1 (node : GNode)
  | Gather (separator : GNode) (node : GNode)
  | PositiveLookahead (node : GNode)
  | NegativeLookahead (node : GNode)
  | Forced (node : GNode)
  | Cut
  | Rhs (alts : GNode)
  | AltsNil
  | AltsCons (a : GNode) (rest : GNode)
  | Alt (items : GNode)
  | ItemsNil
  | ItemsCons (i : GNode) (rest : GNode)
  | TLI (name : Option String) (item : GNode) (nullable : Bool)
deriving DecidableEq, Repr

/-- A grammar rule (grammar.py class `Rule`): name, optional type, rhs,
memo flag, and the analysis flags mutated by the analyzer. -/
structure GRule where
  name : String
  type : Option String
  rhs : GNode
  memo : Bool
  nullable : Bool
  left_recursive : Bool
  leader : Bool
deriving DecidableEq, Repr

/-- Dict lookup `self.rules[name]` / `name in self.rules`. -/
def lookupRule (rules : List GRule) (n : String) : Option GRule :=
  rules.find? (fun r => r.name == n)

/-- In-place mutation of the rule object bound to a name. -/
def updateRule (rules : List GRule) (n : String) (f : GRule → GRule) : List GRule :=
  rules.map (fun r => if r.name = n then f r else r)

/-- State of a `NullableVisitor` traversal: the shared `visited` set (rule
names stand for the rule objects, which the grammar keys by name) and the
rules with their current flags. -/
structure NSt where
  visited : List String
  rules : List GRule
deriving DecidableEq, Repr

/-- The node-level dispatch of `NullableVisitor` (parser_generator.py lines
192-259), parameterised by the rule-visiting function `vr` (the recursion
`visit_NameLeaf` → `visit_Rule`).  Returns the visit result, the node with
updated `TopLevelItem.nullable` flags, and the updated state.
`visit_Rhs` returns true at the first nullable alternative (later
alternatives unvisited); `visit_Alt` returns false at the first
non-nullable item (later items unvisited); `visit_Opt`, `visit_Repeat0`,
`visit_Repeat1`, `visit_Gather`, `visit_Forced`, `visit_LookAhead` and
`visit_Cut` answer without visiting children.  The lookahead case covers
both lookahead node classes (the legacy grammar module that fixes the
dispatched class names is not in the sources; per spec §4.4 lookaheads are
nullable, matching the visitor's `visit_LookAhead`). -/
def nodeVisit (vr : NSt → String → Bool × NSt) : NSt → GNode → Bool × GNode × NSt
  | st, .NameLeaf v =>
    match lookupRule st.rules v with
    | some _ =>
      let r := vr st v
      (r.1, .NameLeaf v, r.2)
    | none => (false, .NameLeaf v, st)
  | st, .StringLeaf v => (v == "", .StringLeaf v, st)
  | st, .Group rhs =>
    let r := nodeVisit vr st rhs
    (r.1, .Group r.2.1, r.2.2)
  | st, .Opt x => (true, .Opt x, st)
  | st, .Repeat0 x => (true, .Repeat0 x, st)
  | st, .Repeat1 x => (false, .Repeat1 x, st)
  | st, .Gather sep x => (false, .Gather sep x, st)
  | st, .PositiveLookahead x => (true, .PositiveLookahead x, st)
  | st, .NegativeLookahead x => (true, .NegativeLookahead x, st)
  | st, .Forced x => (true, .Forced x, st)
  | st, .Cut => (false, .Cut, st)
  | st, .Rhs alts =>
    let r := nodeVisit vr st alts
    (r.1, .Rhs r.2.1, r.2.2)
  | st, .AltsNil => (false, .AltsNil, st)
  | st, .AltsCons a rest =>
    let r := nodeVisit vr st a
    if r.1 then (true, .AltsCons r.2.1 rest, r.2.2)
    else
      let r2 := nodeVisit vr r.2.2 rest
      (r2.1, .AltsCons r.2.1 r2.2.1, r2.2.2)
  | st, .Alt items =>
    let r := nodeVisit vr st items
    (r.1, .Alt r.2.1, r.2.2)
  | st, .ItemsNil => (true, .ItemsNil, st)
  | st, .ItemsCons i rest =>
    let r := nodeVisit vr st i
    if r.1 then
      let r2 := nodeVisit vr r.2.2 rest
      (r2.1, .ItemsCons r.2.1 r2.2.1, r2.2.2)
    else (false, .ItemsCons r.2.1 rest, r.2.2)
  | st, .TLI nm it fl =>
    let r := nodeVisit vr st it
    let fl2 := fl || r.1
    (fl2, .TLI nm r.2.1 fl2, r.2.2)

/-- `NullableVisitor.visit_Rule` (lines 197-203) with fuel for the jump
into other rules: return false for a visited rule, otherwise mark visited,
visit the rhs, set `rule.nullable` if the rhs was nullable, and return the
flag.  Fuel `rules.length + 1` is enough: each nested unvisited-rule visit
adds a distinct name to `visited`. -/
def nvisitRule : Nat → NSt → String → Bool × NSt
  | 0, st, _ => (false, st)
  | fuel + 1, st, n =>
    match lookupRule st.rules n with
    | none => (false, st)
    | some r =>
      if n ∈ st.visited then (false, st)
      else
        let st1 : NSt := ⟨n :: st.visited, st.rules⟩
        let rr := nodeVisit (fun s m => nvisitRule fuel s m) st1 r.rhs
        let newNullable := r.nullable || rr.1
        (newNullable,
          ⟨rr.2.2.visited,
            updateRule rr.2.2.rules n
              (fun r0 => { r0 with nullable := newNullable, rhs := rr.2.1 })⟩)

/-- `compute_nullables` (lines 262-269): one shared visitor instance visits
every rule in order. -/
def compute_nullables (rules : List GRule) : List GRule :=
  ((rules.map (fun r => r.name)).foldl
    (fun st n => (nvisitRule (st.rules.length + 1) st n).2)
    (⟨[], rules⟩ : NSt)).rules

/-- The spec's reference nullability (§4.4), as an inductive definition
over grammar nodes: a rule is nullable iff some alternative is nullable,
an alternative iff every item is nullable; `Opt`, `Repeat0`, lookaheads
and `Forced` are nullable, `Repeat1` and `Gather` are not; the empty
string leaf is nullable; a name leaf is nullable iff it resolves to a
nullable rule; a group follows its rhs.  The parameter `cutN` selects
whether `Cut` counts as nullable (the spec says it does; the code says it
does not). -/
inductive RefNullable (cutN : Bool) (rules : List GRule) : GNode → Prop where
  | opt (x : GNode) : RefNullable cutN rules (.Opt x)
  | repeat0 (x : GNode) : RefNullable cutN rules (.Repeat0 x)
  | positiveLookahead (x : GNode) : RefNullable cutN rules (.PositiveLookahead x)
  | negativeLookahead (x : GNode) : RefNullable cutN rules (.NegativeLookahead x)
  | forced (x : GNode) : RefNullable cutN rules (.Forced x)
  | cut (h : cutN = true) : RefNullable cutN rules .Cut
  | stringLeafEmpty : RefNullable cutN rules (.StringLeaf "")
  | nameLeaf (v : String) (r : GRule) (hr : lookupRule rules v = some r)
      (hn : RefNullable cutN rules r.rhs) : RefNullable cutN rules (.NameLeaf v)
  | group (rhs : GNode) (h : RefNullable cutN rules rhs) :
      RefNullable cutN rules (.Group rhs)
  | rhs (alts : GNode) (h : RefNullable cutN rules alts) :
      RefNullable cutN rules (.Rhs alts)
  | altsHead (a rest : GNode) (h : RefNullable cutN rules a) :
      RefNullable cutN rules (.AltsCons a rest)
  | altsTail (a rest : GNode) (h : RefNullable cutN rules rest) :
      RefNullable cutN rules (.AltsCons a rest)
  | alt (items : GNode) (h : RefNullable cutN rules items) :
      RefNullable cutN rules (.Alt items)
  | itemsNil : RefNullable cutN rules .ItemsNil
  | itemsCons (i rest : GNode) (hi : RefNullable cutN rules i)
      (hrest : RefNullable cutN rules rest) : RefNullable cutN rules (.ItemsCons i rest)
  | tli (nm : Option String) (it : GNode) (fl : Bool)
      (h : RefNullable cutN rules it) : RefNullable cutN rules (.TLI nm it fl)

/-- Reference nullability of a named rule. -/
def RefNullableRule (cutN : Bool) (rules : List GRule) (n : String) : Prop :=
  ∃ r, lookupRule rules n = some r ∧ RefNullable cutN rules r.rhs

/-- All `TopLevelItem.nullable` flags in a node are unset (the state of a
freshly parsed grammar). -/
def nodeFlagsClear : GNode → Bool
  | .NameLeaf _ => true
  | .StringLeaf _ => true
  | .Group rhs => nodeFlagsClear rhs
  | .Opt x => nodeFlagsClear x
  | .Repeat0 x => nodeFlagsClear x
  | .Repeat1 x => nodeFlagsClear x
  | .Gather sep x => nodeFlagsClear sep && nodeFlagsClear x
  | .PositiveLookahead x => nodeFlagsClear x
  | .NegativeLookahead x => nodeFlagsClear x
  | .Forced x => nodeFlagsClear x
  | .Cut => true
  | .Rhs alts => nodeFlagsClear alts
  | .AltsNil => true
  | .AltsCons a rest => nodeFlagsClear a && nodeFlagsClear rest
  | .Alt items => nodeFlagsClear items
  | .ItemsNil => true
  | .ItemsCons i rest => nodeFlagsClear i && nodeFlagsClear rest
  | .TLI _ it fl => !fl && nodeFlagsClear it

/-- All analysis flags of a fresh grammar are unset. -/
def rulesFlagsClear (rules : List GRule) : Bool :=
  rules.all (fun r => !r.nullable && !r.left_recursive && !r.leader && nodeFlagsClear r.rhs)

/-- Soundness invariant of a `NullableVisitor` state with respect to the
original rules: every rule flag already set is justified by the reference
definition, and rules not yet visited still have their original entry. -/
def NInv (rules0 : List GRule) (st : NSt) : Prop :=
  (∀ r ∈ st.rules, r.nullable = true → RefNullableRule false rules0 r.name) ∧
  (∀ n, n ∉ st.visited → lookupRule st.rules n = lookupRule rules0 n)

theorem lookupRule_name {rules : List GRule} {n : String} {r : GRule}
    (h : lookupRule rules n = some r) : r.name = n := by
  have := List.find?_some h
  simpa using this

theorem lookupRule_mem {rules : List GRule} {n : String} {r : GRule}
    (h : lookupRule rules n = some r) : r ∈ rules :=
  List.mem_of_find?_eq_some h

theorem lookupRule_map (g : GRule → GRule) (hg : ∀ r, (g r).name = r.name) :
    ∀ (rules : List GRule) (m : String),
      lookupRule (rules.map g) m = (lookupRule rules m).map g := by
  intro rules m
  induction rules with
  | nil => rfl
  | cons r rest ih =>
    simp only [lookupRule] at ih ⊢
    simp only [List.map_cons, List.find?_cons]
    rw [hg r]
    by_cases h : (r.name == m) = true
    · simp [h]
    · simp only [Bool.not_eq_true] at h
      simp only [h, cond_false]
      exact ih

theorem lookupRule_update_ne (rules : List GRule) (n : String) (f : GRule → GRule)
    (hf : ∀ r, (f r).name = r.name) (m : String) (hm : m ≠ n) :
    lookupRule (updateRule rules n f) m = lookupRule rules m := by
  unfold updateRule
  rw [lookupRule_map (fun r => if r.name = n then f r else r)
    (by intro r; by_cases h : r.name = n <;> simp [h, hf])]
  rcases h : lookupRule rules m with _ | r
  · rfl
  · have : r.name = m := lookupRule_name h
    simp [this, hm]

theorem lookupRule_update_flags_ne (rules : List GRule) (n : String) (b : Bool)
    (rh : GNode) (m : String) (hm : m ≠ n) :
    lookupRule (updateRule rules n (fun r0 => { r0 with nullable := b, rhs := rh })) m =
      lookupRule rules m :=
  lookupRule_update_ne rules n (fun r0 => { r0 with nullable := b, rhs := rh })
    (fun _ => rfl) m hm

theorem nodeVisit_sound (rules0 : List GRule) (vr : NSt → String → Bool × NSt)
    (hvr : ∀ st n, NInv rules0 st →
      NInv rules0 (vr st n).2 ∧ st.visited ⊆ (vr st n).2.visited ∧
        ((vr st n).1 = true → RefNullableRule false rules0 n)) :
    ∀ (x : GNode) (st : NSt), NInv rules0 st → nodeFlagsClear x = true →
      NInv rules0 (nodeVisit vr st x).2.2 ∧
        st.visited ⊆ (nodeVisit vr st x).2.2.visited ∧
        ((nodeVisit vr st x).1 = true → RefNullable false rules0 x) := by
  intro x
  induction x with
  | NameLeaf v =>
    intro st hinv _
    rcases hl : lookupRule st.rules v with _ | r
    · simp only [nodeVisit, hl]
      exact ⟨hinv, by simp, by simp⟩
    · simp only [nodeVisit, hl]
      obtain ⟨h1, h2, h3⟩ := hvr st v hinv
      refine ⟨h1, h2, fun hb => ?_⟩
      obtain ⟨r0, hr0, hn0⟩ := h3 hb
      exact RefNullable.nameLeaf v r0 hr0 hn0
  | StringLeaf v =>
    intro st hinv _
    simp only [nodeVisit]
    refine ⟨hinv, by simp, fun hb => ?_⟩
    have : v = "" := by simpa using hb
    subst this
    exact RefNullable.stringLeafEmpty
  | Group rhs ih =>
    intro st hinv hclear
    simp only [nodeFlagsClear] at hclear
    obtain ⟨h1, h2, h3⟩ := ih st hinv hclear
    exact ⟨h1, h2, fun hb => RefNullable.group rhs (h3 hb)⟩
  | Opt x _ =>
    intro st hinv _
    exact ⟨hinv, by simp [nodeVisit], fun _ => RefNullable.opt x⟩
  | Repeat0 x _ =>
    intro st hinv _
    exact ⟨hinv, by simp [nodeVisit], fun _ => RefNullable.repeat0 x⟩
  | Repeat1 x _ =>
    intro st hinv _
    exact ⟨hinv, by simp [nodeVisit], by simp [nodeVisit]⟩
  | Gather sep x _ _ =>
    intro st hinv _
    exact ⟨hinv, by simp [nodeVisit], by simp [nodeVisit]⟩
  | PositiveLookahead x _ =>
    intro st hinv _
    exact ⟨hinv, by simp [nodeVisit], fun _ => RefNullable.positiveLookahead x⟩
  | NegativeLookahead x _ =>
    intro st hinv _
    exact ⟨hinv, by simp [nodeVisit], fun _ => RefNullable.negativeLookahead x⟩
  | Forced x _ =>
    intro st hinv _
    exact ⟨hinv, by simp [nodeVisit], fun _ => RefNullable.forced x⟩
  | Cut =>
    intro st hinv _
    exact ⟨hinv, by simp [nodeVisit], by simp [nodeVisit]⟩
  | Rhs alts ih =>
    intro st hinv hclear
    simp only [nodeFlagsClear] at hclear
    obtain ⟨h1, h2, h3⟩ := ih st hinv hclear
    exact ⟨h1, h2, fun hb => RefNullable.rhs alts (h3 hb)⟩
  | AltsNil =>
    intro st hinv _
    exact ⟨hinv, by simp [nodeVisit], by simp [nodeVisit]⟩
  | AltsCons a rest iha ihrest =>
    intro st hinv hclear
    simp only [nodeFlagsClear, Bool.and_eq_true] at hclear
    obtain ⟨a1, a2, a3⟩ := iha st hinv hclear.1
    by_cases hb1 : (nodeVisit vr st a).1 = true
    · simp only [nodeVisit, hb1, if_true]
      exact ⟨a1, a2, fun _ => RefNullable.altsHead a rest (a3 hb1)⟩
    · obtain ⟨b1, b2, b3⟩ := ihrest (nodeVisit vr st a).2.2 a1 hclear.2
      simp only [nodeVisit, hb1, if_false, Bool.false_eq_true]
      refine ⟨b1, fun y hy => b2 (a2 hy), fun hb => RefNullable.altsTail a rest (b3 hb)⟩
  | Alt items ih =>
    intro st hinv hclear
    simp only [nodeFlagsClear] at hclear
    obtain ⟨h1, h2, h3⟩ := ih st hinv hclear
    exact ⟨h1, h2, fun hb => RefNullable.alt items (h3 hb)⟩
  | ItemsNil =>
    intro st hinv _
    exact ⟨hinv, by simp [nodeVisit], fun _ => RefNullable.itemsNil⟩
  | ItemsCons i rest ihi ihrest =>
    intro st hinv hclear
    simp only [nodeFlagsClear, Bool.and_eq_true] at hclear
    obtain ⟨a1, a2, a3⟩ := ihi st hinv hclear.1
    by_cases hb1 : (nodeVisit vr st i).1 = true
    · obtain ⟨b1, b2, b3⟩ := ihrest (nodeVisit vr st i).2.2 a1 hclear.2
      simp only [nodeVisit, hb1, if_true]
      exact ⟨b1, fun y hy => b2 (a2 hy),
        fun hb => RefNullable.itemsCons i rest (a3 hb1) (b3 hb)⟩
    · simp only [nodeVisit, hb1, if_false, Bool.false_eq_true]
      exact ⟨a1, a2, by simp⟩
  | TLI nm it fl ihit =>
    intro st hinv hclear
    simp only [nodeFlagsClear, Bool.and_eq_true, Bool.not_eq_true'] at hclear
    obtain ⟨a1, a2, a3⟩ := ihit st hinv hclear.2
    simp only [nodeVisit, hclear.1, Bool.false_or]
    exact ⟨a1, a2, fun hb => RefNullable.tli nm it false (a3 hb)⟩

theorem nvisitRule_sound (rules0 : List GRule) (hclear0 : rulesFlagsClear rules0 = true) :
    ∀ (fuel : Nat) (st : NSt) (n : String), NInv rules0 st →
      NInv rules0 (nvisitRule fuel st n).2 ∧
        st.visited ⊆ (nvisitRule fuel st n).2.visited ∧
        ((nvisitRule fuel st n).1 = true → RefNullableRule false rules0 n) := by
  intro fuel
  induction fuel with
  | zero =>
    intro st n hinv
    exact ⟨hinv, by simp [nvisitRule], by simp [nvisitRule]⟩
  | succ f ih =>
    intro st n hinv
    rcases hl : lookupRule st.rules n with _ | r
    · simp only [nvisitRule, hl]
      exact ⟨hinv, by simp, by simp⟩
    · by_cases hv : n ∈ st.visited
      · simp only [nvisitRule, hl, if_pos hv]
        exact ⟨hinv, by simp, by simp⟩
      · simp only [nvisitRule, hl, if_neg hv]
        have hinv1 : NInv rules0 ⟨n :: st.visited, st.rules⟩ := by
          refine ⟨hinv.1, fun m hm => ?_⟩
          exact hinv.2 m (fun hc => hm (List.mem_cons_of_mem _ hc))
        have hr0 : lookupRule rules0 n = some r := by
          rw [← hinv.2 n hv]
          exact hl
        have hclearR : nodeFlagsClear r.rhs = true := by
          have hmem := lookupRule_mem hr0
          simp only [rulesFlagsClear, List.all_eq_true] at hclear0
          have := hclear0 r hmem
          simp only [Bool.and_eq_true] at this
          exact this.2
        obtain ⟨j1, j2, j3⟩ := nodeVisit_sound rules0 (fun s m => nvisitRule f s m)
          (fun st' n' hinv' => ih st' n' hinv') r.rhs ⟨n :: st.visited, st.rules⟩
          hinv1 hclearR
        have hnmem : n ∈ (nodeVisit (fun s m => nvisitRule f s m)
            ⟨n :: st.visited, st.rules⟩ r.rhs).2.2.visited :=
          j2 (List.mem_cons_self n _)
        have hRefIfNew : (r.nullable ||
            (nodeVisit (fun s m => nvisitRule f s m) ⟨n :: st.visited, st.rules⟩ r.rhs).1) =
            true → RefNullableRule false rules0 n := by
          intro hb
          rcases Bool.or_eq_true_iff.mp hb with hb | hb
          · have := hinv.1 r (lookupRule_mem hl) hb
            rwa [lookupRule_name hl] at this
          · exact ⟨r, hr0, j3 hb⟩
        refine ⟨⟨?_, ?_⟩, ?_, fun hb => hRefIfNew hb⟩
        · -- flag soundness after the update
          intro r0 hr0mem hr0null
          simp only [updateRule] at hr0mem
          obtain ⟨orig, horigmem, horigeq⟩ := List.mem_map.mp hr0mem
          by_cases hname : orig.name = n
          · rw [if_pos hname] at horigeq
            subst horigeq
            simp only
            rw [hname]
            refine hRefIfNew ?_
            simpa using hr0null
          · rw [if_neg hname] at horigeq
            subst horigeq
            exact j1.1 orig horigmem hr0null
        · -- unvisited rules unchanged after the update
          intro m hm
          simp only at hm
          have hmn : m ≠ n := fun he => hm (he ▸ hnmem)
          rw [lookupRule_update_flags_ne _ _ _ _ m hmn]
          exact j1.2 m hm
        · -- visited grows
          intro y hy
          exact j2 (List.mem_cons_of_mem _ hy)

/-- C5 (amended), soundness of `compute_nullables`: every rule it marks
nullable is nullable under the reference definition with `Cut` counted as
not nullable.  (It can also miss nullable rules: a `NameLeaf` whose target
rule was already visited in the same traversal is treated as not
nullable — see the counterexample for the claim as stated.) -/
theorem compute_nullables_sound (rules : List GRule)
    (hclear : rulesFlagsClear rules = true) (n : String)
    (hnull : ((lookupRule (compute_nullables rules) n).map (fun r => r.nullable)) =
      some true) :
    RefNullableRule false rules n := by
  have hInvInit : NInv rules ⟨[], rules⟩ := by
    refine ⟨fun r hr hnul => ?_, fun m _ => rfl⟩
    simp only [rulesFlagsClear, List.all_eq_true] at hclear
    have := hclear r hr
    simp only [Bool.and_eq_true, Bool.not_eq_true'] at this
    rw [this.1.1.1] at hnul
    cases hnul
  have hfold : ∀ (names : List String) (st : NSt), NInv rules st →
      NInv rules (names.foldl (fun st n => (nvisitRule (st.rules.length + 1) st n).2) st) := by
    intro names
    induction names with
    | nil => intro st h; exact h
    | cons m rest ihn =>
      intro st h
      exact ihn _ (nvisitRule_sound rules hclear (st.rules.length + 1) st m h).1
  have hfinal := hfold (rules.map (fun r => r.name)) ⟨[], rules⟩ hInvInit
  rcases hlook : lookupRule (compute_nullables rules) n with _ | r
  · rw [hlook] at hnull
    cases hnull
  · rw [hlook] at hnull
    have hrn : r.nullable = true := by
      have := hnull
      simp only [Option.map] at this
      exact Option.some.inj this
    have hrmem : r ∈ (compute_nullables rules) := lookupRule_mem hlook
    have := hfinal.1 r (by simpa [compute_nullables] using hrmem) hrn
    rwa [lookupRule_name hlook] at this

/-- Rule `start: ~` — a single alternative holding only a `Cut`. -/
def gCutRule : GRule :=
  ⟨"start", none,
    .Rhs (.AltsCons (.Alt (.ItemsCons (.TLI none .Cut false) .ItemsNil)) .AltsNil),
    false, false, false, false⟩

/-- Grammar with the single rule `start: ~`. -/
def gCut : List GRule := [gCutRule]

/-- C5 counterexample: on the grammar `start: ~`, `compute_nullables`
leaves `start` unmarked (`visit_Cut` returns false), but the claim's
reference definition — in which `Cut` is nullable — makes `start`
nullable.  So `compute_nullables` does not mark exactly the rules the
claim's reference definition deems nullable. -/
theorem compute_nullables_cut_counterexample :
    ((lookupRule (compute_nullables gCut) "start").map (fun r => r.nullable)) =
      some false ∧
    RefNullableRule true gCut "start" := by
  constructor
  · decide
  · refine ⟨gCutRule, by decide, ?_⟩
    exact RefNullable.rhs _ (RefNullable.altsHead _ _ (RefNullable.alt _
      (RefNullable.itemsCons _ _ (RefNullable.tli none .Cut false
        (RefNullable.cut rfl)) RefNullable.itemsNil)))

/-- Grammar with the single rule `a: ""` (an empty string leaf). -/
def gEps : List GRule :=
  [⟨"a", none,
    .Rhs (.AltsCons (.Alt (.ItemsCons (.TLI none (.StringLeaf "") false) .ItemsNil)) .AltsNil),
    false, false, false, false⟩]

/-- C5 witness: the soundness theorem applied to the concrete grammar
`a: ""`, whose rule `compute_nullables` marks nullable. -/
theorem compute_nullables_sound_witness : RefNullableRule false gEps "a" :=
  compute_nullables_sound gEps (by decide) "a" (by decide)

/-- Append an element to a list-as-set when absent (used to model Python
set accumulation deterministically; only membership is meaningful). -/
def insertIfNew (l : List String) (x : String) : List String :=
  if x ∈ l then l else l ++ [x]

/-- Set union of two lists-as-sets. -/
def sUnion (a b : List String) : List String :=
  b.foldl insertIfNew a

/-- Set difference of lists-as-sets. -/
def listDiff (a b : List String) : List String :=
  a.filter (fun x => !(b.contains x))

/-- `initial_names` (grammar.py): the rule names reachable at the leftmost
position.  For an alternative, items contribute until (and including) the
first item whose `nullable` flag is unset — this reads the flags set by
`compute_nullables`.  Lookaheads, `Forced`, `Cut` and string leaves
contribute nothing; `Gather` contributes only its element (its separator
is ignored, as in `Repeat.initial_names`). -/
def initialNames : GNode → List String
  | .NameLeaf v => [v]
  | .StringLeaf _ => []
  | .Group rhs => initialNames rhs
  | .Opt x => initialNames x
  | .Repeat0 x => initialNames x
  | .Repeat1 x => initialNames x
  | .Gather _ x => initialNames x
  | .PositiveLookahead _ => []
  | .NegativeLookahead _ => []
  | .Forced _ => []
  | .Cut => []
  | .Rhs alts => initialNames alts
  | .AltsNil => []
  | .AltsCons a rest => sUnion (initialNames a) (initialNames rest)
  | .Alt items => initialNames items
  | .ItemsNil => []
  | .ItemsCons i rest =>
    match i with
    | .TLI _ it fl =>
      if fl then sUnion (initialNames it) (initialNames rest)
      else initialNames it
    | other => initialNames other
  | .TLI _ it _ => initialNames it

/-- A first-invocation graph: association list from rule name to the set
of names it may invoke at its initial position. -/
abbrev Graph : Type := List (String × List String)

/-- Dict assignment `graph[rulename] = names` (replace or append). -/
def graphInsert (g : Graph) (k : String) (v : List String) : Graph :=
  if (g.find? (fun p => p.1 == k)).isSome then
    g.map (fun p => if p.1 = k then (k, v) else p)
  else g ++ [(k, v)]

/-- Successors of a vertex (`graph[name]`, empty when absent). -/
def succs (g : Graph) (n : String) : List String :=
  match g.find? (fun p => p.1 == n) with
  | some p => p.2
  | none => []

/-- The graph's keys. -/
def keys (g : Graph) : List String := g.map (fun p => p.1)

/-- The graph's keys as a set (deduplicated). -/
def dedupKeys (g : Graph) : List String := (keys g).dedup

/-- First loop of `make_first_graph`: `graph[rulename] = rhs.initial_names()`
for every rule. -/
def mfgStep1 (rules : List GRule) : Graph :=
  rules.foldl (fun g r => graphInsert g r.name (initialNames r.rhs)) []

/-- The accumulated vertex set `vertices |= names` of `make_first_graph`. -/
def mfgVertices (rules : List GRule) : List String :=
  rules.foldl (fun vs r => sUnion vs (initialNames r.rhs)) []

/-- Second loop of `make_first_graph`: `graph.setdefault(vertex, set())`. -/
def mfgSetdefault (vs : List String) (g0 : Graph) : Graph :=
  vs.foldl
    (fun g v => if (g.find? (fun p => p.1 == v)).isSome then g else g ++ [(v, [])])
    g0

/-- `make_first_graph` (parser_generator.py lines 302-317): one edge set
per rule from `initial_names`, then `setdefault` for every mentioned
vertex. -/
def make_first_graph (rules : List GRule) : Graph :=
  mfgSetdefault (mfgVertices rules) (mfgStep1 rules)

/-- One step of reachable-set expansion: add all successors of members. -/
def stepR (g : Graph) (S : List String) : List String :=
  S.foldl (fun acc v => sUnion acc (succs g v)) S

/-- Iterate a function. -/
def iterN {α : Type} (f : α → α) : Nat → α → α
  | 0, x => x
  | n + 1, x => iterN f n (f x)

/-- Modelled from the spec: the vertices reachable from `a` (reflexive
transitive closure along the first-invocation edges), computed by
saturation; `g.length + 1` expansion steps always saturate. -/
def reachSet (g : Graph) (a : String) : List String :=
  iterN (stepR g) (g.length + 1) [a]

/-- Modelled from the spec: mutual reachability. -/
def mutualReach (g : Graph) (a b : String) : Bool :=
  (reachSet g a).contains b && (reachSet g b).contains a

/-- Modelled from the spec: the strongly connected component of a vertex
(§4.4: SCCs of the first-invocation graph; `stde/pegen/sccutils.py` is not
in the sources). -/
def sccOf (g : Graph) (a : String) : List String :=
  (dedupKeys g).filter (fun w => mutualReach g a w)

/-- Modelled from the spec: the SCC decomposition as a list of components
(order immaterial to the analysis; `strongly_connected_components` of
`stde/pegen/sccutils.py` is not in the sources). -/
def sccsOf (g : Graph) : List (List String) :=
  ((dedupKeys g).map (fun v => sccOf g v)).dedup

/-- Continuation-style inner loop of the cycle search: extend the current
path by each successor, emitting a cycle when the start vertex recurs. -/
def cyclesList (handler : String → List String → List (List String))
    (scc : List String) (start : String) :
    List String → List String → List (List String)
  | [], _ => []
  | w :: ws, path =>
    (if w ∈ scc then
      (if w = start then [path.reverse]
       else if w ∈ path then []
       else handler w (w :: path))
     else []) ++ cyclesList handler scc start ws path

/-- Modelled from the spec: depth-first enumeration of the elementary
cycles through `start` lying inside `scc` (`find_cycles_in_scc` of
`stde/pegen/sccutils.py` is not in the sources).  Each cycle is the list
of its vertices beginning at `start`; fuel `scc.length` bounds the path
length, so no elementary cycle is cut off. -/
def cyclesAux (g : Graph) (scc : List String) (start : String) :
    Nat → String → List String → List (List String)
  | 0, _, _ => []
  | fuel + 1, v, path =>
    cyclesList (fun w p => cyclesAux g scc start fuel w p) scc start (succs g v) path

/-- Modelled from the spec: all elementary cycles through `start` in `scc`. -/
def find_cycles_in_scc (g : Graph) (scc : List String) (start : String) :
    List (List String) :=
  cyclesAux g scc start scc.length start [start]

/-- All cycles of the SCC, enumerated from every start vertex, in the
order the double loop of `compute_left_recursives` sees them. -/
def allCycles (g : Graph) (scc : List String) : List (List String) :=
  scc.foldl (fun acc start => acc ++ find_cycles_in_scc g scc start) []

/-- Exceptions raised by grammar processing: `ValidationError` (from
`stde/pegen/common.py`, raised by name validation and `Grammar.__init__`)
and the built-in `ValueError` raised by `compute_left_recursives`. -/
inductive PErr where
  | validationError (msg : String)
  | valueError (msg : String)
deriving DecidableEq, Repr

/-- The message of the no-leader `ValueError` (line 289; the Python
message interpolates the SCC, which the embedding leaves out). -/
def lrNoLeaderMsg : String :=
  "SCC has no leadership candidate (no element is included in all cycles)"

/-- The `leaders -= scc - set(cycle)` loop with its emptiness check
(lines 282-290), over the flattened list of cycles. -/
def shrinkLeaders (scc : List String) :
    List (List String) → List String → Except PErr (List String)
  | [], leaders => .ok leaders
  | c :: cs, leaders =>
    let leaders2 := listDiff leaders (listDiff scc c)
    if leaders2.isEmpty then .error (.valueError lrNoLeaderMsg)
    else shrinkLeaders scc cs leaders2

/-- Lexicographic (code-point) comparison of characters. -/
def charLt (a b : Char) : Bool := decide (a < b)

/-- Lexicographic comparison of character lists. -/
def chLtList : List Char → List Char → Bool
  | [], [] => false
  | [], _ :: _ => true
  | _ :: _, [] => false
  | a :: as, b :: bs =>
    if charLt a b then true else if charLt b a then false else chLtList as bs

/-- Python string `<` (lexicographic by code point). -/
def strLt (a b : String) : Bool := chLtList a.data b.data

/-- Python `min` over a nonempty collection of strings. -/
def minStr : List String → Option String
  | [] => none
  | x :: xs => some (xs.foldl (fun m y => if strLt y m then y else m) x)

/-- Mark every rule of the SCC left-recursive (lines 279-280). -/
def markLR (rules : List GRule) (scc : List String) : List GRule :=
  rules.map (fun r => if r.name ∈ scc then { r with left_recursive := true } else r)

/-- The per-SCC body of `compute_left_recursives` (lines 277-298): a
multi-vertex SCC marks all members left-recursive, intersects the cycles
to find leader candidates (raising `ValueError` when none remain), and
marks the smallest candidate as leader; a singleton SCC with a self-edge
marks its rule left-recursive and its own leader. -/
def processScc (g : Graph) (rules : List GRule) (scc : List String) :
    Except PErr (List GRule) :=
  if 1 < scc.length then
    match shrinkLeaders scc (allCycles g scc) scc with
    | .error e => .error e
    | .ok leaders =>
      match minStr leaders with
      | some leader =>
        .ok (updateRule (markLR rules scc) leader (fun r => { r with leader := true }))
      | none => .error (.valueError lrNoLeaderMsg)
  else
    match scc with
    | [name] =>
      if name ∈ succs g name then
        .ok (updateRule rules name
          (fun r => { r with left_recursive := true, leader := true }))
      else .ok rules
    | _ => .ok rules

/-- Sequential processing of the SCC list. -/
def processSccs (g : Graph) : List (List String) → List GRule → Except PErr (List GRule)
  | [], rules => .ok rules
  | scc :: rest, rules =>
    match processScc g rules scc with
    | .error e => .error e
    | .ok rules2 => processSccs g rest rules2

/-- `compute_left_recursives` (lines 272-299): build the first-invocation
graph, decompose into SCCs, and mark flags per SCC; returns the graph, the
SCC list and the updated rules. -/
def compute_left_recursives (rules : List GRule) :
    Except PErr (Graph × List (List String) × List GRule) :=
  match processSccs (make_first_graph rules) (sccsOf (make_first_graph rules)) rules with
  | .error e => .error e
  | .ok rules2 =>
    .ok (make_first_graph rules, sccsOf (make_first_graph rules), rules2)

/-! Facts about the list-as-set helpers, string order and `minStr`. -/

theorem mem_insertIfNew {l : List String} {x y : String} :
    y ∈ insertIfNew l x ↔ (y ∈ l ∨ y = x) := by
  unfold insertIfNew
  by_cases h : x ∈ l
  · rw [if_pos h]
    constructor
    · exact Or.inl
    · rintro (hy | rfl)
      · exact hy
      · exact h
  · rw [if_neg h]
    simp

theorem nodup_insertIfNew {l : List String} {x : String} (h : l.Nodup) :
    (insertIfNew l x).Nodup := by
  unfold insertIfNew
  by_cases hx : x ∈ l
  · rwa [if_pos hx]
  · rw [if_neg hx]
    rw [List.nodup_append]
    refine ⟨h, List.nodup_singleton x, ?_⟩
    intro a ha hb
    rw [List.mem_singleton] at hb
    exact hx (hb ▸ ha)

theorem mem_sUnion {a b : List String} {y : String} :
    y ∈ sUnion a b ↔ y ∈ a ∨ y ∈ b := by
  unfold sUnion
  induction b generalizing a with
  | nil => simp
  | cons x xs ih =>
    simp only [List.foldl_cons]
    rw [ih, mem_insertIfNew]
    simp only [List.mem_cons]
    tauto

theorem nodup_sUnion {a b : List String} (h : a.Nodup) : (sUnion a b).Nodup := by
  unfold sUnion
  induction b generalizing a with
  | nil => exact h
  | cons x xs ih => exact ih (nodup_insertIfNew h)

theorem mem_listDiff {a b : List String} {y : String} :
    y ∈ listDiff a b ↔ y ∈ a ∧ y ∉ b := by
  unfold listDiff
  rw [List.mem_filter]
  simp [List.contains]

theorem contains_iff {l : List String} {y : String} : l.contains y = true ↔ y ∈ l := by
  simp [List.contains]

theorem chLt_trans : ∀ {x y z : List Char},
    chLtList x y = true → chLtList y z = true → chLtList x z = true := by
  intro x
  induction x with
  | nil =>
    intro y z hxy hyz
    cases y with
    | nil => exact hyz
    | cons b bs =>
      cases z with
      | nil => simp [chLtList] at hyz
      | cons c cs => simp [chLtList]
  | cons a as ih =>
    intro y z hxy hyz
    cases y with
    | nil => simp [chLtList] at hxy
    | cons b bs =>
      cases z with
      | nil => simp [chLtList] at hyz
      | cons c cs =>
        simp only [chLtList, charLt] at hxy hyz ⊢
        by_cases hab : a < b
        · by_cases hbc : b < c
          · simp [lt_trans hab hbc]
          · by_cases hcb : c < b
            · simp [hbc, hcb] at hyz
            · have : b = c := le_antisymm (not_lt.mp hcb) (not_lt.mp hbc)
              subst this
              simp [hab]
        · by_cases hba : b < a
          · simp [hab, hba] at hxy
          · have hab2 : a = b := le_antisymm (not_lt.mp hba) (not_lt.mp hab)
            subst hab2
            simp [hab] at hxy
            by_cases hbc : a < c
            · simp [hbc]
            · by_cases hcb : c < a
              · simp [hbc, hcb] at hyz
              · have : a = c := le_antisymm (not_lt.mp hcb) (not_lt.mp hbc)
                subst this
                simp [hbc] at hyz ⊢
                exact ih hxy hyz

theorem chLt_trichotomy : ∀ (x y : List Char),
    chLtList x y = true ∨ x = y ∨ chLtList y x = true := by
  intro x
  induction x with
  | nil =>
    intro y
    cases y with
    | nil => exact Or.inr (Or.inl rfl)
    | cons b bs => exact Or.inl (by simp [chLtList])
  | cons a as ih =>
    intro y
    cases y with
    | nil => exact Or.inr (Or.inr (by simp [chLtList]))
    | cons b bs =>
      rcases lt_trichotomy a b with h | h | h
      · exact Or.inl (by simp [chLtList, charLt, h])
      · subst h
        rcases ih bs with h2 | h2 | h2
        · exact Or.inl (by simp [chLtList, charLt, h2])
        · exact Or.inr (Or.inl (by rw [h2]))
        · exact Or.inr (Or.inr (by simp [chLtList, charLt, h2]))
      · exact Or.inr (Or.inr (by simp [chLtList, charLt, h, not_lt.mpr (le_of_lt h)]))

theorem strLt_trans {x y z : String} (h1 : strLt x y = true) (h2 : strLt y z = true) :
    strLt x z = true :=
  chLt_trans h1 h2

theorem strLt_trichotomy (x y : String) : strLt x y = true ∨ x = y ∨ strLt y x = true := by
  rcases chLt_trichotomy x.data y.data with h | h | h
  · exact Or.inl h
  · refine Or.inr (Or.inl ?_)
    cases x with
    | mk xd =>
      cases y with
      | mk yd =>
        simp only at h
        rw [h]
  · exact Or.inr (Or.inr h)

theorem minStr_spec : ∀ (l : List String) (m : String), minStr l = some m →
    m ∈ l ∧ ∀ y ∈ l, m = y ∨ strLt m y = true := by
  have haux : ∀ (xs : List String) (x : String),
      (xs.foldl (fun m y => if strLt y m then y else m) x) ∈ x :: xs ∧
        ∀ y ∈ x :: xs, (xs.foldl (fun m y => if strLt y m then y else m) x) = y ∨
          strLt (xs.foldl (fun m y => if strLt y m then y else m) x) y = true := by
    intro xs
    induction xs with
    | nil =>
      intro x
      exact ⟨List.mem_singleton.mpr rfl, by simp⟩
    | cons y ys ih =>
      intro x
      simp only [List.foldl_cons]
      obtain ⟨ihmem, ihmin⟩ := ih (if strLt y x then y else x)
      set M := ys.foldl (fun m y => if strLt y m then y else m) (if strLt y x then y else x)
      have hm2 := ihmin (if strLt y x then y else x) (List.mem_cons_self _ _)
      have hbx : M = x ∨ strLt M x = true := by
        by_cases h : strLt y x = true
        · rw [if_pos h] at hm2
          rcases hm2 with he | hlt
          · refine Or.inr ?_
            rw [he]
            exact h
          · exact Or.inr (strLt_trans hlt h)
        · rwa [if_neg h] at hm2
      have hby : M = y ∨ strLt M y = true := by
        by_cases h : strLt y x = true
        · rwa [if_pos h] at hm2
        · rw [if_neg h] at hm2
          rcases strLt_trichotomy x y with hxy | hxy | hxy
          · rcases hm2 with he | hlt
            · refine Or.inr ?_
              rw [he]
              exact hxy
            · exact Or.inr (strLt_trans hlt hxy)
          · rw [← hxy]
            exact hm2
          · exact absurd hxy (by simpa using h)
      constructor
      · rcases List.mem_cons.mp ihmem with he | hmem
        · by_cases h : strLt y x = true
          · rw [if_pos h] at he
            rw [he]
            simp
          · rw [if_neg h] at he
            rw [he]
            simp
        · exact List.mem_cons_of_mem _ (List.mem_cons_of_mem _ hmem)
      · intro z hz
        rcases List.mem_cons.mp hz with rfl | hz2
        · exact hbx
        · rcases List.mem_cons.mp hz2 with rfl | hz3
          · exact hby
          · exact ihmin z (List.mem_cons_of_mem _ hz3)
  intro l m hm
  cases l with
  | nil => cases hm
  | cons x xs =>
    simp only [minStr] at hm
    obtain ⟨hmem, hmin⟩ := haux xs x
    cases hm
    exact ⟨hmem, hmin⟩

theorem contains_false_iff {l : List String} {y : String} :
    l.contains y = false ↔ y ∉ l := by
  constructor
  · intro h hm
    rw [← contains_iff] at hm
    rw [h] at hm
    cases hm
  · intro h
    rcases h2 : l.contains y with _ | _
    · rfl
    · exact absurd (contains_iff.mp h2) h

theorem listDiff_filter_of_subset {scc leaders c : List String}
    (hsub : ∀ x ∈ leaders, x ∈ scc) :
    listDiff leaders (listDiff scc c) = leaders.filter (fun n => c.contains n) := by
  unfold listDiff
  refine List.filter_congr ?_
  intro x hx
  rcases hc : c.contains x with _ | _
  · have hxc : x ∉ c := contains_false_iff.mp hc
    have hmem : x ∈ listDiff scc c := mem_listDiff.mpr ⟨hsub x hx, hxc⟩
    rw [← contains_iff] at hmem
    unfold listDiff at hmem
    rw [hmem]
    rfl
  · have hxc : x ∈ c := contains_iff.mp hc
    have hnm : x ∉ listDiff scc c := fun hm => (mem_listDiff.mp hm).2 hxc
    rw [← contains_false_iff] at hnm
    unfold listDiff at hnm
    rw [hnm]
    rfl

theorem shrink_ok {scc : List String} :
    ∀ (cs : List (List String)) (leaders L : List String),
      (∀ x ∈ leaders, x ∈ scc) → leaders ≠ [] →
      shrinkLeaders scc cs leaders = .ok L →
      L = leaders.filter (fun n => cs.all (fun c => c.contains n)) ∧ L ≠ [] := by
  intro cs
  induction cs with
  | nil =>
    intro leaders L _ hne h
    cases h
    constructor
    · rw [List.filter_eq_self.mpr]
      intro a _
      rfl
    · exact hne
  | cons c cs2 ih =>
    intro leaders L hsub hne h
    simp only [shrinkLeaders] at h
    rw [listDiff_filter_of_subset hsub] at h
    by_cases hemp : (leaders.filter (fun n => c.contains n)).isEmpty = true
    · rw [if_pos hemp] at h
      cases h
    · rw [if_neg hemp] at h
      have hsub2 : ∀ x ∈ leaders.filter (fun n => c.contains n), x ∈ scc := by
        intro x hx
        exact hsub x (List.mem_of_mem_filter hx)
      have hne2 : leaders.filter (fun n => c.contains n) ≠ [] := by
        intro he
        rw [he] at hemp
        exact hemp rfl
      obtain ⟨hL, hLne⟩ := ih _ L hsub2 hne2 h
      refine ⟨?_, hLne⟩
      rw [hL, List.filter_filter]
      refine List.filter_congr ?_
      intro x _
      simp [List.all_cons, Bool.and_comm]

theorem shrink_error {scc : List String} :
    ∀ (cs : List (List String)) (leaders : List String),
      (∀ x ∈ leaders, x ∈ scc) → leaders ≠ [] →
      leaders.filter (fun n => cs.all (fun c => c.contains n)) = [] →
      shrinkLeaders scc cs leaders = .error (.valueError lrNoLeaderMsg) := by
  intro cs
  induction cs with
  | nil =>
    intro leaders hsub hne hfilt
    rw [List.filter_eq_self.mpr (by intro a _; rfl)] at hfilt
    exact absurd hfilt hne
  | cons c cs2 ih =>
    intro leaders hsub hne hfilt
    simp only [shrinkLeaders]
    rw [listDiff_filter_of_subset hsub]
    by_cases hemp : (leaders.filter (fun n => c.contains n)).isEmpty = true
    · rw [if_pos hemp]
    · rw [if_neg hemp]
      refine ih _ ?_ ?_ ?_
      · intro x hx
        exact hsub x (List.mem_of_mem_filter hx)
      · intro he
        rw [he] at hemp
        exact hemp rfl
      · rw [List.filter_filter]
        rw [← hfilt]
        refine List.filter_congr ?_
        intro x _
        simp [List.all_cons, Bool.and_comm]

/-! Reachability facts for the modelled SCC decomposition. -/

/-- Every edge target is itself a key of the graph (always true of
`make_first_graph` output, which `setdefault`s every mentioned vertex). -/
def closedG (g : Graph) : Bool :=
  g.all (fun p => p.2.all (fun m => (keys g).contains m))

theorem succs_subset_keys {g : Graph} (hcg : closedG g = true) {v y : String}
    (hy : y ∈ succs g v) : y ∈ keys g := by
  unfold succs at hy
  rcases hf : g.find? (fun p => p.1 == v) with _ | p
  · rw [hf] at hy
    cases hy
  · rw [hf] at hy
    have hpmem := List.mem_of_find?_eq_some hf
    unfold closedG at hcg
    rw [List.all_eq_true] at hcg
    have := hcg p hpmem
    rw [List.all_eq_true] at this
    exact contains_iff.mp (this y hy)

theorem mem_stepR_foldl {g : Graph} {y : String} :
    ∀ (l : List String) (A : List String),
      y ∈ l.foldl (fun acc v => sUnion acc (succs g v)) A ↔
        y ∈ A ∨ ∃ v ∈ l, y ∈ succs g v := by
  intro l
  induction l with
  | nil => simp
  | cons x xs ih =>
    intro A
    simp only [List.foldl_cons]
    rw [ih, mem_sUnion]
    constructor
    · rintro ((h | h) | ⟨v, hv, hy⟩)
      · exact Or.inl h
      · exact Or.inr ⟨x, List.mem_cons_self _ _, h⟩
      · exact Or.inr ⟨v, List.mem_cons_of_mem _ hv, hy⟩
    · rintro (h | ⟨v, hv, hy⟩)
      · exact Or.inl (Or.inl h)
      · rcases List.mem_cons.mp hv with rfl | hv2
        · exact Or.inl (Or.inr hy)
        · exact Or.inr ⟨v, hv2, hy⟩

theorem mem_stepR {g : Graph} {S : List String} {y : String} :
    y ∈ stepR g S ↔ y ∈ S ∨ ∃ v ∈ S, y ∈ succs g v := by
  unfold stepR
  exact mem_stepR_foldl S S

theorem subset_stepR {g : Graph} {S : List String} : ∀ y ∈ S, y ∈ stepR g S :=
  fun y hy => mem_stepR.mpr (Or.inl hy)

theorem stepR_mono {g : Graph} {S T : List String} (h : ∀ y ∈ S, y ∈ T) :
    ∀ y ∈ stepR g S, y ∈ stepR g T := by
  intro y hy
  rcases mem_stepR.mp hy with h2 | ⟨v, hv, h2⟩
  · exact mem_stepR.mpr (Or.inl (h y h2))
  · exact mem_stepR.mpr (Or.inr ⟨v, h v hv, h2⟩)

theorem nodup_stepR {g : Graph} {S : List String} (h : S.Nodup) : (stepR g S).Nodup := by
  unfold stepR
  have : ∀ (l : List String) (A : List String), A.Nodup →
      (l.foldl (fun acc v => sUnion acc (succs g v)) A).Nodup := by
    intro l
    induction l with
    | nil => intro A hA; exact hA
    | cons x xs ih => intro A hA; exact ih _ (nodup_sUnion hA)
  exact this S S h

theorem stepR_bound {g : Graph} (hcg : closedG g = true) {S V : List String}
    (hk : ∀ y ∈ keys g, y ∈ V) (hS : ∀ y ∈ S, y ∈ V) : ∀ y ∈ stepR g S, y ∈ V := by
  intro y hy
  rcases mem_stepR.mp hy with h2 | ⟨v, _, h2⟩
  · exact hS y h2
  · exact hk y (succs_subset_keys hcg h2)

theorem iterN_add {α : Type} (f : α → α) (m n : Nat) (x : α) :
    iterN f (m + n) x = iterN f n (iterN f m x) := by
  induction m generalizing x with
  | zero => simp [iterN]
  | succ k ih =>
    have : k + 1 + n = k + n + 1 := by omega
    rw [this]
    simp only [iterN]
    exact ih (f x)

theorem iterN_commute {α : Type} (f : α → α) (n : Nat) (x : α) :
    iterN f n (f x) = f (iterN f n x) := by
  induction n generalizing x with
  | zero => rfl
  | succ k ih =>
    simp only [iterN]
    exact ih (f x)

theorem iterN_mem {g : Graph} {y : String} :
    ∀ (i : Nat) (S : List String), y ∈ S → y ∈ iterN (stepR g) i S := by
  intro i
  induction i with
  | zero => intro S h; exact h
  | succ k ih => intro S h; exact ih _ (subset_stepR y h)

theorem iterN_mono {g : Graph} :
    ∀ (i : Nat) (S T : List String), (∀ y ∈ S, y ∈ T) →
      ∀ y ∈ iterN (stepR g) i S, y ∈ iterN (stepR g) i T := by
  intro i
  induction i with
  | zero => intro S T h; exact h
  | succ k ih => intro S T h; exact ih _ _ (stepR_mono h)

theorem iterN_nodup {g : Graph} :
    ∀ (i : Nat) (S : List String), S.Nodup → (iterN (stepR g) i S).Nodup := by
  intro i
  induction i with
  | zero => intro S h; exact h
  | succ k ih => intro S h; exact ih _ (nodup_stepR h)

theorem iterN_bound {g : Graph} (hcg : closedG g = true) {V : List String}
    (hk : ∀ y ∈ keys g, y ∈ V) :
    ∀ (i : Nat) (S : List String), (∀ y ∈ S, y ∈ V) →
      ∀ y ∈ iterN (stepR g) i S, y ∈ V := by
  intro i
  induction i with
  | zero => intro S h; exact h
  | succ k ih => intro S h; exact ih _ (stepR_bound hcg hk h)

theorem iterN_stab {g : Graph} :
    ∀ (i : Nat) (S : List String), stepR g S = S → iterN (stepR g) i S = S := by
  intro i
  induction i with
  | zero => intro S _; rfl
  | succ k ih =>
    intro S h
    simp only [iterN, h]
    exact ih S h

theorem sUnion_append (a b : List String) : ∃ t, sUnion a b = a ++ t := by
  unfold sUnion
  induction b generalizing a with
  | nil => exact ⟨[], by simp⟩
  | cons x xs ih =>
    simp only [List.foldl_cons]
    by_cases h : x ∈ a
    · have hin : insertIfNew a x = a := by
        unfold insertIfNew
        rw [if_pos h]
      rw [hin]
      exact ih a
    · have hin : insertIfNew a x = a ++ [x] := by
        unfold insertIfNew
        rw [if_neg h]
      rw [hin]
      obtain ⟨t, ht⟩ := ih (a ++ [x])
      exact ⟨[x] ++ t, by rw [ht, List.append_assoc]⟩

theorem stepR_append {g : Graph} (S : List String) : ∃ t, stepR g S = S ++ t := by
  unfold stepR
  have haux : ∀ (l A : List String),
      ∃ t, l.foldl (fun acc v => sUnion acc (succs g v)) A = A ++ t := by
    intro l
    induction l with
    | nil => intro A; exact ⟨[], by simp⟩
    | cons x xs ih =>
      intro A
      simp only [List.foldl_cons]
      obtain ⟨t1, ht1⟩ := sUnion_append A (succs g x)
      rw [ht1]
      obtain ⟨t2, ht2⟩ := ih (A ++ t1)
      exact ⟨t1 ++ t2, by rw [ht2, List.append_assoc]⟩
  exact haux S S

theorem stepR_grow {g : Graph} (S : List String) :
    stepR g S = S ∨ S.length < (stepR g S).length := by
  obtain ⟨t, ht⟩ := stepR_append (g := g) S
  cases t with
  | nil => left; simpa using ht
  | cons x xs =>
    right
    rw [ht]
    simp

theorem nodup_subset_length {s t : List String} (hs : s.Nodup) (h : ∀ y ∈ s, y ∈ t) :
    s.length ≤ t.length := by
  have h1 : s.length = s.toFinset.card := (List.toFinset_card_of_nodup hs).symm
  have h2 : s.toFinset ⊆ t.toFinset := by
    intro x hx
    rw [List.mem_toFinset] at hx ⊢
    exact h x hx
  calc s.length = s.toFinset.card := h1
    _ ≤ t.toFinset.card := Finset.card_le_card h2
    _ ≤ t.length := List.toFinset_card_le t

theorem iterN_succ_eq {α : Type} (f : α → α) (j : Nat) (S : α) :
    iterN f (j + 1) S = f (iterN f j S) := by
  show iterN f j (f S) = f (iterN f j S)
  exact iterN_commute f j S

theorem iterN_growth {g : Graph} :
    ∀ (k : Nat) (S : List String),
      (∀ j, j < k → stepR g (iterN (stepR g) j S) ≠ iterN (stepR g) j S) →
      S.length + k ≤ (iterN (stepR g) k S).length := by
  intro k
  induction k with
  | zero => intro S _; simp [iterN]
  | succ j ih =>
    intro S hne
    have hj := ih S (fun i hi => hne i (by omega))
    have hlast := hne j (by omega)
    rcases stepR_grow (g := g) (iterN (stepR g) j S) with he | hlt
    · exact absurd he hlast
    · rw [iterN_succ_eq]
      omega

theorem insertIfNew_length (l : List String) (x : String) :
    (insertIfNew l x).length ≤ l.length + 1 := by
  unfold insertIfNew
  split
  · omega
  · simp

theorem dedupKeys_length_le {g : Graph} : (dedupKeys g).length ≤ g.length := by
  have h1 : (dedupKeys g).length ≤ (keys g).length :=
    (List.dedup_sublist (keys g)).length_le
  simpa [keys] using h1

theorem reach_refl {g : Graph} (a : String) : a ∈ reachSet g a :=
  iterN_mem _ _ (by simp)

/-- The saturation in `reachSet` reaches a fixpoint of `stepR` within
`g.length + 1` steps (cardinality argument over the key set plus `a`). -/
theorem reachSet_fix {g : Graph} (hcg : closedG g = true) (a : String) :
    stepR g (reachSet g a) = reachSet g a := by
  have hkV : ∀ y ∈ keys g, y ∈ insertIfNew (dedupKeys g) a := fun y hy =>
    mem_insertIfNew.mpr (Or.inl (List.mem_dedup.mpr hy))
  have haV : ∀ y ∈ [a], y ∈ insertIfNew (dedupKeys g) a := by
    intro y hy
    rw [List.mem_singleton] at hy
    exact mem_insertIfNew.mpr (Or.inr hy)
  have hVlen : (insertIfNew (dedupKeys g) a).length ≤ g.length + 1 := by
    have h1 := insertIfNew_length (dedupKeys g) a
    have h2 := dedupKeys_length_le (g := g)
    omega
  by_cases hstab : ∃ j, j < g.length + 1 ∧
      stepR g (iterN (stepR g) j [a]) = iterN (stepR g) j [a]
  · obtain ⟨j, hj, hfix⟩ := hstab
    have hdecomp : reachSet g a = iterN (stepR g) j [a] := by
      unfold reachSet
      have heq : g.length + 1 = j + (g.length + 1 - j) := by omega
      rw [heq, iterN_add]
      exact iterN_stab _ _ hfix
    rw [hdecomp, hfix]
  · push_neg at hstab
    exfalso
    have hgrow := iterN_growth (g := g) (g.length + 1) [a] (fun j hj => hstab j hj)
    have hbound : ∀ y ∈ iterN (stepR g) (g.length + 1) [a],
        y ∈ insertIfNew (dedupKeys g) a :=
      iterN_bound hcg hkV _ _ haV
    have hnd : (iterN (stepR g) (g.length + 1) [a]).Nodup :=
      iterN_nodup _ _ (List.nodup_singleton a)
    have hle := nodup_subset_length hnd hbound
    simp only [List.length_singleton] at hgrow
    omega

theorem iterN_in_fix {g : Graph} {R : List String} (hfix : stepR g R = R) :
    ∀ (k : Nat) (S : List String), (∀ y ∈ S, y ∈ R) →
      ∀ y ∈ iterN (stepR g) k S, y ∈ R := by
  intro k
  induction k with
  | zero => intro S h; exact h
  | succ j ih =>
    intro S h y hy
    refine ih (stepR g S) ?_ y hy
    intro z hz
    rw [← hfix]
    exact stepR_mono h z hz

theorem reach_trans {g : Graph} (hcg : closedG g = true) {a b c : String}
    (hab : b ∈ reachSet g a) (hbc : c ∈ reachSet g b) : c ∈ reachSet g a := by
  refine iterN_in_fix (reachSet_fix hcg a) (g.length + 1) [b] ?_ c hbc
  intro y hy
  rw [List.mem_singleton] at hy
  rw [hy]
  exact hab

theorem mutualReach_iff {g : Graph} {a b : String} :
    mutualReach g a b = true ↔ (b ∈ reachSet g a ∧ a ∈ reachSet g b) := by
  unfold mutualReach
  rw [Bool.and_eq_true, contains_iff, contains_iff]

theorem mutualReach_refl {g : Graph} (a : String) : mutualReach g a a = true :=
  mutualReach_iff.mpr ⟨reach_refl a, reach_refl a⟩

theorem mutualReach_symm {g : Graph} {a b : String}
    (h : mutualReach g a b = true) : mutualReach g b a = true := by
  rw [mutualReach_iff] at h ⊢
  exact ⟨h.2, h.1⟩

theorem mutualReach_trans {g : Graph} (hcg : closedG g = true) {a b c : String}
    (h1 : mutualReach g a b = true) (h2 : mutualReach g b c = true) :
    mutualReach g a c = true := by
  rw [mutualReach_iff] at h1 h2 ⊢
  exact ⟨reach_trans hcg h1.1 h2.1, reach_trans hcg h2.2 h1.2⟩

theorem sccOf_eq {g : Graph} (hcg : closedG g = true) {a b : String}
    (h : mutualReach g a b = true) : sccOf g a = sccOf g b := by
  unfold sccOf
  refine List.filter_congr (fun w _ => ?_)
  rw [Bool.eq_iff_iff]
  constructor
  · intro haw
    exact mutualReach_trans hcg (mutualReach_symm h) haw
  · intro hbw
    exact mutualReach_trans hcg h hbw

theorem mem_sccOf_iff {g : Graph} {a w : String} :
    w ∈ sccOf g a ↔ (w ∈ dedupKeys g ∧ mutualReach g a w = true) := by
  unfold sccOf
  rw [List.mem_filter]

theorem sccOf_nodup {g : Graph} (a : String) : (sccOf g a).Nodup :=
  List.Nodup.filter _ (List.nodup_dedup _)

theorem mem_sccsOf {g : Graph} {s : List String} (h : s ∈ sccsOf g) :
    ∃ v ∈ dedupKeys g, s = sccOf g v := by
  unfold sccsOf at h
  rw [List.mem_dedup, List.mem_map] at h
  obtain ⟨v, hv, hs⟩ := h
  exact ⟨v, hv, hs.symm⟩

theorem sccs_nodup_each {g : Graph} {s : List String} (h : s ∈ sccsOf g) :
    s.Nodup := by
  obtain ⟨v, _, hs⟩ := mem_sccsOf h
  rw [hs]
  exact sccOf_nodup v

theorem sccs_disjoint {g : Graph} (hcg : closedG g = true) {s t : List String}
    (hs : s ∈ sccsOf g) (ht : t ∈ sccsOf g) (hne : s ≠ t) :
    ∀ x ∈ s, x ∉ t := by
  obtain ⟨v, _, hsv⟩ := mem_sccsOf hs
  obtain ⟨w, _, htw⟩ := mem_sccsOf ht
  intro x hxs hxt
  apply hne
  rw [hsv] at hxs ⊢
  rw [htw] at hxt ⊢
  obtain ⟨_, hvx⟩ := mem_sccOf_iff.mp hxs
  obtain ⟨_, hwx⟩ := mem_sccOf_iff.mp hxt
  rw [sccOf_eq hcg hvx, ← sccOf_eq hcg hwx]

theorem graphInsert_entries {g : Graph} {k : String} {v : List String} :
    ∀ p ∈ graphInsert g k v, p ∈ g ∨ p = (k, v) := by
  intro p hp
  unfold graphInsert at hp
  split at hp
  · rw [List.mem_map] at hp
    obtain ⟨q, hq, hpq⟩ := hp
    by_cases h : q.1 = k
    · rw [if_pos h] at hpq
      exact Or.inr hpq.symm
    · rw [if_neg h] at hpq
      exact Or.inl (hpq ▸ hq)
  · rw [List.mem_append] at hp
    rcases hp with h | h
    · exact Or.inl h
    · rw [List.mem_singleton] at h
      exact Or.inr h

theorem mfgStep1_entries_aux :
    ∀ (l : List GRule) (A : Graph),
      ∀ p ∈ l.foldl (fun g r => graphInsert g r.name (initialNames r.rhs)) A,
        p ∈ A ∨ ∃ r ∈ l, p = (r.name, initialNames r.rhs) := by
  intro l
  induction l with
  | nil => intro A p hp; exact Or.inl hp
  | cons r rs ih =>
    intro A p hp
    simp only [List.foldl_cons] at hp
    rcases ih _ p hp with h | ⟨r2, hr2, hp2⟩
    · rcases graphInsert_entries p h with h2 | h3
      · exact Or.inl h2
      · exact Or.inr ⟨r, List.mem_cons_self r rs, h3⟩
    · exact Or.inr ⟨r2, List.mem_cons_of_mem r hr2, hp2⟩

theorem mfgStep1_entries {rules : List GRule} :
    ∀ p ∈ mfgStep1 rules, ∃ r ∈ rules, p = (r.name, initialNames r.rhs) := by
  intro p hp
  rcases mfgStep1_entries_aux rules [] p hp with h | h
  · cases h
  · exact h

theorem mfgVertices_acc :
    ∀ (l : List GRule) (A : List String) (y : String),
      (y ∈ A ∨ ∃ r ∈ l, y ∈ initialNames r.rhs) →
      y ∈ l.foldl (fun vs r => sUnion vs (initialNames r.rhs)) A := by
  intro l
  induction l with
  | nil =>
    intro A y h
    rcases h with h | ⟨r, hr, _⟩
    · exact h
    · cases hr
  | cons r rs ih =>
    intro A y h
    simp only [List.foldl_cons]
    apply ih
    rcases h with h | ⟨r2, hr2, hy⟩
    · exact Or.inl (mem_sUnion.mpr (Or.inl h))
    · rcases List.mem_cons.mp hr2 with he | hm
      · rw [← he]
        exact Or.inl (mem_sUnion.mpr (Or.inr hy))
      · exact Or.inr ⟨r2, hm, hy⟩

theorem mfgVertices_cover {rules : List GRule} {r : GRule} (hr : r ∈ rules)
    {y : String} (hy : y ∈ initialNames r.rhs) : y ∈ mfgVertices rules :=
  mfgVertices_acc rules [] y (Or.inr ⟨r, hr, hy⟩)

theorem mfgSetdefault_keys_mono :
    ∀ (l : List String) (A : Graph) (y : String),
      y ∈ keys A → y ∈ keys (mfgSetdefault l A) := by
  intro l
  induction l with
  | nil => intro A y h; exact h
  | cons v vs ih =>
    intro A y h
    simp only [mfgSetdefault, List.foldl_cons] at *
    apply ih
    split
    · exact h
    · unfold keys at h ⊢
      rw [List.map_append]
      exact List.mem_append_left _ h

theorem mfgSetdefault_keys_cover :
    ∀ (l : List String) (A : Graph) (y : String),
      y ∈ l → y ∈ keys (mfgSetdefault l A) := by
  intro l
  induction l with
  | nil => intro A y h; cases h
  | cons v vs ih =>
    intro A y h
    rcases List.mem_cons.mp h with he | hm
    · simp only [mfgSetdefault, List.foldl_cons]
      have hmem : y ∈ keys (if (A.find? (fun p => p.1 == v)).isSome then A
          else A ++ [(v, [])]) := by
        split
        · rename_i hf
          rw [Option.isSome_iff_exists] at hf
          obtain ⟨p, hp⟩ := hf
          have hpmem := List.mem_of_find?_eq_some hp
          have hp1 : p.1 = v := by
            have := List.find?_some hp
            simpa using this
          rw [he]
          rw [← hp1]
          exact List.mem_map.mpr ⟨p, hpmem, rfl⟩
        · unfold keys
          rw [List.map_append, List.mem_append]
          right
          rw [he]
          simp
      exact mfgSetdefault_keys_mono vs _ y hmem
    · exact ih _ y hm

theorem mfgSetdefault_entries :
    ∀ (l : List String) (A : Graph),
      ∀ p ∈ mfgSetdefault l A, p ∈ A ∨ p.2 = [] := by
  intro l
  induction l with
  | nil => intro A p hp; exact Or.inl hp
  | cons v vs ih =>
    intro A p hp
    simp only [mfgSetdefault, List.foldl_cons] at hp
    rcases ih _ p hp with h | h
    · split at h
      · exact Or.inl h
      · rw [List.mem_append] at h
        rcases h with h2 | h2
        · exact Or.inl h2
        · rw [List.mem_singleton] at h2
          rw [h2]
          exact Or.inr rfl
    · exact Or.inr h

theorem make_first_graph_closed (rules : List GRule) :
    closedG (make_first_graph rules) = true := by
  unfold closedG
  rw [List.all_eq_true]
  intro p hp
  rw [List.all_eq_true]
  intro m hm
  rw [contains_iff]
  have hp2 : p ∈ mfgSetdefault (mfgVertices rules) (mfgStep1 rules) := hp
  rcases mfgSetdefault_entries _ _ p hp2 with hstep | hnil
  · obtain ⟨r, hr, hpr⟩ := mfgStep1_entries p hstep
    have hm2 : m ∈ initialNames r.rhs := by
      rw [hpr] at hm
      exact hm
    exact mfgSetdefault_keys_cover _ _ m (mfgVertices_cover hr hm2)
  · rw [hnil] at hm
    cases hm

theorem succs_make_first_graph {rules : List GRule} {n : String}
    (h : succs (make_first_graph rules) n ≠ []) :
    ∃ r ∈ rules, r.name = n := by
  unfold succs at h
  rcases hf : (make_first_graph rules).find? (fun p => p.1 == n) with _ | p
  · rw [hf] at h
    exact absurd rfl h
  · rw [hf] at h
    have hm := List.mem_of_find?_eq_some hf
    have hp1 : p.1 = n := by
      have := List.find?_some hf
      simpa using this
    have hm2 : p ∈ mfgSetdefault (mfgVertices rules) (mfgStep1 rules) := hm
    rcases mfgSetdefault_entries _ _ p hm2 with hstep | hnil
    · obtain ⟨r, hr, hpr⟩ := mfgStep1_entries p hstep
      refine ⟨r, hr, ?_⟩
      rw [hpr] at hp1
      exact hp1
    · exact absurd hnil h

theorem reachSet_singleton {g : Graph} {n : String} (hs : succs g n = []) :
    reachSet g n = [n] := by
  unfold reachSet
  apply iterN_stab
  show stepR g [n] = [n]
  unfold stepR
  simp only [List.foldl_cons, List.foldl_nil]
  rw [hs]
  rfl

theorem scc_mem_is_rule {rules : List GRule} {scc : List String}
    (hscc : scc ∈ sccsOf (make_first_graph rules)) (hlen : 1 < scc.length)
    {n : String} (hn : n ∈ scc) : ∃ r ∈ rules, r.name = n := by
  have hnodup : scc.Nodup := sccs_nodup_each hscc
  obtain ⟨m, hm, hmn⟩ : ∃ m ∈ scc, m ≠ n := by
    by_contra hcon
    push_neg at hcon
    have hsub : ∀ x ∈ scc, x ∈ [n] := by
      intro x hx
      rw [List.mem_singleton]
      exact hcon x hx
    have := nodup_subset_length hnodup hsub
    simp only [List.length_singleton] at this
    omega
  obtain ⟨v, _, hsv⟩ := mem_sccsOf hscc
  rw [hsv] at hn hm
  obtain ⟨_, hvn⟩ := mem_sccOf_iff.mp hn
  obtain ⟨_, hvm⟩ := mem_sccOf_iff.mp hm
  have hcg := make_first_graph_closed rules
  have hnm : mutualReach (make_first_graph rules) n m = true :=
    mutualReach_trans hcg (mutualReach_symm hvn) hvm
  have hmr : m ∈ reachSet (make_first_graph rules) n := (mutualReach_iff.mp hnm).1
  by_cases hsucc : succs (make_first_graph rules) n = []
  · rw [reachSet_singleton hsucc] at hmr
    rw [List.mem_singleton] at hmr
    exact absurd hmr hmn
  · exact succs_make_first_graph hsucc

theorem scc_mem_lookup {rules : List GRule} {scc : List String}
    (hscc : scc ∈ sccsOf (make_first_graph rules)) (hlen : 1 < scc.length)
    {n : String} (hn : n ∈ scc) : ∃ r, lookupRule rules n = some r := by
  obtain ⟨r, hr, hname⟩ := scc_mem_is_rule hscc hlen hn
  have hsome : (rules.find? (fun r0 => r0.name == n)).isSome := by
    rw [List.find?_isSome]
    refine ⟨r, hr, ?_⟩
    rw [hname]
    exact beq_self_eq_true n
  exact Option.isSome_iff_exists.mp hsome

theorem lookupRule_markLR (rules : List GRule) (scc : List String) (m : String) :
    lookupRule (markLR rules scc) m =
      (lookupRule rules m).map
        (fun r => if r.name ∈ scc then { r with left_recursive := true } else r) := by
  unfold markLR
  exact lookupRule_map _ (fun r => by split <;> rfl) rules m

theorem lookupRule_update_self (rules : List GRule) (n : String) (f : GRule → GRule)
    (hf : ∀ r, (f r).name = r.name) :
    lookupRule (updateRule rules n f) n = (lookupRule rules n).map f := by
  unfold updateRule
  rw [lookupRule_map (fun r => if r.name = n then f r else r)
    (by intro r; by_cases h : r.name = n <;> simp [h, hf])]
  rcases h : lookupRule rules n with _ | r
  · rfl
  · have hname : r.name = n := lookupRule_name h
    simp [hname]

/-- A multi-vertex SCC whose leader search succeeds updates the rules in
one definite way. -/
theorem processScc_multi_eq {g : Graph} (rules : List GRule) {scc : List String}
    (hlen : 1 < scc.length) {leaders : List String}
    (hsh : shrinkLeaders scc (allCycles g scc) scc = .ok leaders)
    {L : String} (hmin : minStr leaders = some L) :
    processScc g rules scc =
      .ok (updateRule (markLR rules scc) L (fun r => { r with leader := true })) := by
  unfold processScc
  rw [if_pos hlen, hsh]
  show (match minStr leaders with
    | some leader =>
      Except.ok (updateRule (markLR rules scc) leader (fun r => { r with leader := true }))
    | none => Except.error (PErr.valueError lrNoLeaderMsg)) = _
  rw [hmin]

/-- A multi-vertex SCC whose leader search fails makes `processScc` raise
the no-leader `ValueError`, whatever the rules are. -/
theorem processScc_multi_error {g : Graph} (rules : List GRule) {scc : List String}
    (hlen : 1 < scc.length)
    (hsh : shrinkLeaders scc (allCycles g scc) scc = .error (.valueError lrNoLeaderMsg)) :
    processScc g rules scc = .error (.valueError lrNoLeaderMsg) := by
  unfold processScc
  rw [if_pos hlen, hsh]

/-- A self-recursive singleton SCC sets both flags of its rule. -/
theorem processScc_singleton_eq {g : Graph} (rules : List GRule) {name : String}
    (hself : name ∈ succs g name) :
    processScc g rules [name] =
      .ok (updateRule rules name
        (fun r => { r with left_recursive := true, leader := true })) := by
  unfold processScc
  rw [if_neg (by simp)]
  show (if name ∈ succs g name then
      Except.ok (updateRule rules name
        (fun r => { r with left_recursive := true, leader := true }))
    else Except.ok rules) = _
  rw [if_pos hself]

theorem shrink_error_val {scc : List String} :
    ∀ (cs : List (List String)) (leaders : List String) (e : PErr),
      shrinkLeaders scc cs leaders = .error e → e = .valueError lrNoLeaderMsg := by
  intro cs
  induction cs with
  | nil => intro leaders e h; cases h
  | cons c cs2 ih =>
    intro leaders e h
    simp only [shrinkLeaders] at h
    split at h
    · injection h with h2
      exact h2.symm
    · exact ih _ e h

/-- Every error `processScc` can produce is the no-leader `ValueError`. -/
theorem processScc_error_val {g : Graph} {rules : List GRule} {scc : List String}
    {e : PErr} (h : processScc g rules scc = .error e) :
    e = .valueError lrNoLeaderMsg := by
  unfold processScc at h
  split at h
  · split at h
    · rename_i e2 heq
      injection h with h2
      rw [← h2]
      exact shrink_error_val _ _ _ heq
    · split at h
      · cases h
      · injection h with h2
        exact h2.symm
  · split at h
    · split at h
      · cases h
      · cases h
    · cases h

/-- A successful `processScc` only touches rules named in its SCC. -/
theorem processScc_preserve {g : Graph} {rules rules2 : List GRule}
    {scc : List String} (hok : processScc g rules scc = .ok rules2)
    {n : String} (hn : n ∉ scc) :
    lookupRule rules2 n = lookupRule rules n := by
  have hmark : lookupRule (markLR rules scc) n = lookupRule rules n := by
    rw [lookupRule_markLR]
    rcases h : lookupRule rules n with _ | r
    · rfl
    · show some (if r.name ∈ scc then { r with left_recursive := true } else r) = some r
      rw [if_neg (by rw [lookupRule_name h]; exact hn)]
  unfold processScc at hok
  by_cases hlen : 1 < scc.length
  · rw [if_pos hlen] at hok
    rcases hsh : shrinkLeaders scc (allCycles g scc) scc with e | leaders
    · rw [hsh] at hok
      have hok2 : (Except.error e : Except PErr (List GRule)) = Except.ok rules2 := hok
      cases hok2
    · rw [hsh] at hok
      have hok3 : (match minStr leaders with
          | some leader =>
            Except.ok (updateRule (markLR rules scc) leader
              (fun r => { r with leader := true }))
          | none =>
            (Except.error (PErr.valueError lrNoLeaderMsg) :
              Except PErr (List GRule))) = Except.ok rules2 := hok
      rcases hmin : minStr leaders with _ | L
      · rw [hmin] at hok3
        have hok4 : (Except.error (PErr.valueError lrNoLeaderMsg) :
            Except PErr (List GRule)) = Except.ok rules2 := hok3
        cases hok4
      · rw [hmin] at hok3
        have hok4 : Except.ok (updateRule (markLR rules scc) L
            (fun r => { r with leader := true })) = Except.ok rules2 := hok3
        injection hok4 with hr2
        rw [← hr2]
        have hne : scc ≠ [] := by
          intro he
          rw [he] at hlen
          simp at hlen
        obtain ⟨hL, _⟩ := shrink_ok (allCycles g scc) scc leaders
          (fun x hx => hx) hne hsh
        have hLscc : L ∈ scc := by
          have hLmem := (minStr_spec leaders L hmin).1
          rw [hL] at hLmem
          exact List.mem_of_mem_filter hLmem
        rw [lookupRule_update_ne _ _ (fun r => { r with leader := true })
          (fun _ => rfl) n (fun he => hn (he ▸ hLscc))]
        exact hmark
  · rw [if_neg hlen] at hok
    rcases scc with _ | ⟨name, rest⟩
    · have hok2 : (Except.ok rules : Except PErr (List GRule)) = Except.ok rules2 := hok
      injection hok2 with hr2
      rw [hr2]
    · rcases rest with _ | ⟨y, t⟩
      · have hnn : n ≠ name := by
          intro he
          exact hn (by rw [he]; exact List.mem_singleton.mpr rfl)
        have hok3 : (if name ∈ succs g name then
            Except.ok (updateRule rules name
              (fun r => { r with left_recursive := true, leader := true }))
          else (Except.ok rules : Except PErr (List GRule))) = Except.ok rules2 := hok
        by_cases hself : name ∈ succs g name
        · rw [if_pos hself] at hok3
          injection hok3 with hr2
          rw [← hr2]
          exact lookupRule_update_ne _ _
            (fun r => { r with left_recursive := true, leader := true })
            (fun _ => rfl) n hnn
        · rw [if_neg hself] at hok3
          injection hok3 with hr2
          rw [hr2]
      · exfalso
        apply hlen
        simp only [List.length_cons]
        omega

/-- A successful `processSccs` pass leaves rules outside every SCC
untouched. -/
theorem processSccs_preserve {g : Graph} :
    ∀ (sccs : List (List String)) (rules rules2 : List GRule),
      processSccs g sccs rules = .ok rules2 →
      ∀ n, (∀ s ∈ sccs, n ∉ s) →
        lookupRule rules2 n = lookupRule rules n := by
  intro sccs
  induction sccs with
  | nil =>
    intro rules rules2 hok n _
    have hok2 : (Except.ok rules : Except PErr (List GRule)) = Except.ok rules2 := hok
    injection hok2 with hr2
    rw [hr2]
  | cons s rest ih =>
    intro rules rules2 hok n hn
    simp only [processSccs] at hok
    rcases hp : processScc g rules s with e | rules1
    · rw [hp] at hok
      have hok2 : (Except.error e : Except PErr (List GRule)) = Except.ok rules2 := hok
      cases hok2
    · rw [hp] at hok
      have hok2 : processSccs g rest rules1 = Except.ok rules2 := hok
      rw [ih rules1 rules2 hok2 n (fun t ht => hn t (List.mem_cons_of_mem s ht))]
      exact processScc_preserve hp (hn s (List.mem_cons_self s rest))

/-- For any SCC of a pairwise-disjoint duplicate-free SCC list, a
successful `processSccs` behaves on the SCC's names as a single
`processScc` call on rules agreeing with the input. -/
theorem processSccs_lookup {g : Graph} :
    ∀ (sccs : List (List String)) (rules rules2 : List GRule) (scc : List String),
      scc ∈ sccs →
      (∀ s ∈ sccs, ∀ t ∈ sccs, s ≠ t → ∀ x ∈ s, x ∉ t) →
      sccs.Nodup →
      processSccs g sccs rules = .ok rules2 →
      ∃ rulesA rulesB,
        processScc g rulesA scc = .ok rulesB ∧
        (∀ n ∈ scc, lookupRule rulesA n = lookupRule rules n) ∧
        (∀ n ∈ scc, lookupRule rules2 n = lookupRule rulesB n) := by
  intro sccs
  induction sccs with
  | nil => intro rules rules2 scc hmem; cases hmem
  | cons s rest ih =>
    intro rules rules2 scc hmem hdisj hnd hok
    simp only [processSccs] at hok
    rcases hp : processScc g rules s with e | rules1
    · rw [hp] at hok
      have hok2 : (Except.error e : Except PErr (List GRule)) = Except.ok rules2 := hok
      cases hok2
    · rw [hp] at hok
      have hok2 : processSccs g rest rules1 = Except.ok rules2 := hok
      rcases List.mem_cons.mp hmem with he | hm
      · refine ⟨rules, rules1, ?_, fun n _ => rfl, ?_⟩
        · rw [he]
          exact hp
        · intro n hn
          apply processSccs_preserve rest rules1 rules2 hok2 n
          intro t ht
          have hts : scc ≠ t := by
            intro he2
            rw [List.nodup_cons] at hnd
            apply hnd.1
            rw [← he, he2]
            exact ht
          exact hdisj scc (he ▸ List.mem_cons_self s rest) t
            (List.mem_cons_of_mem s ht) hts n hn
      · obtain ⟨rulesA, rulesB, hpr, hA, hB⟩ := ih rules1 rules2 scc hm
          (fun a ha b hb => hdisj a (List.mem_cons_of_mem s ha) b
            (List.mem_cons_of_mem s hb))
          (List.Nodup.of_cons hnd) hok2
        refine ⟨rulesA, rulesB, hpr, ?_, hB⟩
        intro n hn
        rw [hA n hn]
        have hss : scc ≠ s := by
          intro he2
          rw [List.nodup_cons] at hnd
          apply hnd.1
          rw [← he2]
          exact hm
        exact processScc_preserve hp
          (hdisj scc (List.mem_cons_of_mem s hm) s (List.mem_cons_self s rest)
            hss n hn)

/-- Sequential processing fails with the no-leader `ValueError` as soon as
any SCC of the list has no leadership candidate, whatever the rule state
when that SCC is reached. -/
theorem processSccs_error {g : Graph} :
    ∀ (sccs : List (List String)) (rules : List GRule) (scc : List String),
      scc ∈ sccs →
      (∀ rs : List GRule, processScc g rs scc = .error (.valueError lrNoLeaderMsg)) →
      processSccs g sccs rules = .error (.valueError lrNoLeaderMsg) := by
  intro sccs
  induction sccs with
  | nil => intro rules scc h; cases h
  | cons s rest ih =>
    intro rules scc hmem herr
    simp only [processSccs]
    rcases hp : processScc g rules s with e | rules1
    · show (Except.error e : Except PErr (List GRule)) = _
      rw [processScc_error_val hp]
    · show processSccs g rest rules1 = _
      rcases List.mem_cons.mp hmem with he | hm
      · exfalso
        rw [← he] at hp
        rw [herr rules] at hp
        cases hp
      · exact ih rules1 scc hm herr

/-- Shorthand: unnamed top-level item holding a name leaf. -/
def tNL (v : String) : GNode := .TLI none (.NameLeaf v) false

/-- Shorthand: unnamed top-level item holding a string leaf. -/
def tSL (v : String) : GNode := .TLI none (.StringLeaf v) false

/-- Shorthand: a one-item alternative. -/
def alt1 (i : GNode) : GNode := .Alt (.ItemsCons i .ItemsNil)

/-- Shorthand: a two-item alternative. -/
def alt2 (i j : GNode) : GNode := .Alt (.ItemsCons i (.ItemsCons j .ItemsNil))

/-- Shorthand: a one-alternative right-hand side. -/
def rhs1 (a : GNode) : GNode := .Rhs (.AltsCons a .AltsNil)

/-- Shorthand: a two-alternative right-hand side. -/
def rhs2 (a b : GNode) : GNode := .Rhs (.AltsCons a (.AltsCons b .AltsNil))

/-- Grammar `a: b "x" / b: a "y"`: a mutually left-recursive pair. -/
def gMut : List GRule :=
  [⟨"a", none, rhs1 (alt2 (tNL "b") (tSL "x")), false, false, false, false⟩,
   ⟨"b", none, rhs1 (alt2 (tNL "a") (tSL "y")), false, false, false, false⟩]

/-- The rules of `gMut` after left-recursion analysis: both rules
left-recursive, `a` the leader. -/
def gMutOut : List GRule :=
  [⟨"a", none, rhs1 (alt2 (tNL "b") (tSL "x")), false, false, true, true⟩,
   ⟨"b", none, rhs1 (alt2 (tNL "a") (tSL "y")), false, false, true, false⟩]

/-- Grammar `a: b | c / b: c | a / c: a | b`: one SCC of three vertices in
which no vertex lies on all elementary cycles (the 2-cycle `b, c` omits
`a`, and so on), so the leader search must fail. -/
def gTri : List GRule :=
  [⟨"a", none, rhs2 (alt1 (tNL "b")) (alt1 (tNL "c")), false, false, false, false⟩,
   ⟨"b", none, rhs2 (alt1 (tNL "c")) (alt1 (tNL "a")), false, false, false, false⟩,
   ⟨"c", none, rhs2 (alt1 (tNL "a")) (alt1 (tNL "b")), false, false, false, false⟩]

/-- C6: after `compute_left_recursives`, every rule of a multi-vertex SCC
of the first-invocation graph is marked left-recursive, and exactly one
rule of the SCC is marked leader: a rule that lies on every elementary
cycle of the SCC and is lexicographically smallest among the rules with
that property; a singleton SCC whose vertex has a self-edge gets its rule
marked left-recursive and its own leader. -/
theorem compute_left_recursives_marks
    {rules : List GRule} {g : Graph} {sccs : List (List String)}
    {rules2 : List GRule}
    (hok : compute_left_recursives rules = .ok (g, sccs, rules2))
    (hclear : ∀ r ∈ rules, r.left_recursive = false ∧ r.leader = false)
    {scc : List String} (hscc : scc ∈ sccs) :
    (1 < scc.length →
      ∃ L, L ∈ scc ∧
        (∀ c ∈ allCycles g scc, L ∈ c) ∧
        (∀ n ∈ scc, (∀ c ∈ allCycles g scc, n ∈ c) → L = n ∨ strLt L n = true) ∧
        (∀ n ∈ scc, ∃ r, lookupRule rules n = some r ∧
          lookupRule rules2 n =
            some { r with left_recursive := true, leader := decide (n = L) })) ∧
    (∀ name, scc = [name] → name ∈ succs g name →
      ∀ r, lookupRule rules name = some r →
        lookupRule rules2 name =
          some { r with left_recursive := true, leader := true }) := by
  unfold compute_left_recursives at hok
  rcases hps : processSccs (make_first_graph rules)
      (sccsOf (make_first_graph rules)) rules with e | r2
  · rw [hps] at hok
    have hok2 : (Except.error e :
        Except PErr (Graph × List (List String) × List GRule)) =
        Except.ok (g, sccs, rules2) := hok
    cases hok2
  · rw [hps] at hok
    have hok2 : (Except.ok (make_first_graph rules,
        sccsOf (make_first_graph rules), r2) :
        Except PErr (Graph × List (List String) × List GRule)) =
        Except.ok (g, sccs, rules2) := hok
    injection hok2 with h3
    rw [Prod.mk.injEq, Prod.mk.injEq] at h3
    obtain ⟨hg, hsccs, hr2⟩ := h3
    subst hg
    subst hsccs
    subst hr2
    have hcg := make_first_graph_closed rules
    have hnd : (sccsOf (make_first_graph rules)).Nodup := List.nodup_dedup _
    obtain ⟨rulesA, rulesB, hpr, hA, hB⟩ :=
      processSccs_lookup (sccsOf (make_first_graph rules)) rules r2 scc hscc
        (fun a ha b hb => sccs_disjoint hcg ha hb) hnd hps
    refine ⟨?_, ?_⟩
    · intro hlen
      have hpr2 := hpr
      unfold processScc at hpr2
      rw [if_pos hlen] at hpr2
      rcases hsh : shrinkLeaders scc (allCycles (make_first_graph rules) scc) scc
          with e2 | leaders
      · rw [hsh] at hpr2
        have h4 : (Except.error e2 : Except PErr (List GRule)) =
            Except.ok rulesB := hpr2
        cases h4
      · rw [hsh] at hpr2
        have h4 : (match minStr leaders with
            | some leader =>
              Except.ok (updateRule (markLR rulesA scc) leader
                (fun r => { r with leader := true }))
            | none => (Except.error (PErr.valueError lrNoLeaderMsg) :
                Except PErr (List GRule))) = Except.ok rulesB := hpr2
        rcases hmin : minStr leaders with _ | L
        · rw [hmin] at h4
          have h5 : (Except.error (PErr.valueError lrNoLeaderMsg) :
              Except PErr (List GRule)) = Except.ok rulesB := h4
          cases h5
        · rw [hmin] at h4
          have h5 : Except.ok (updateRule (markLR rulesA scc) L
              (fun r => { r with leader := true })) = Except.ok rulesB := h4
          injection h5 with hBeq
          have hne : scc ≠ [] := by
            intro he
            rw [he] at hlen
            simp at hlen
          obtain ⟨hL, _⟩ := shrink_ok (allCycles (make_first_graph rules) scc) scc
            leaders (fun x hx => hx) hne hsh
          obtain ⟨hLmem, hLmin⟩ := minStr_spec leaders L hmin
          have hLfilt := hL ▸ hLmem
          rw [List.mem_filter] at hLfilt
          refine ⟨L, hLfilt.1, ?_, ?_, ?_⟩
          · intro c hc
            rw [← contains_iff]
            exact List.all_eq_true.mp hLfilt.2 c hc
          · intro n hn hprop
            apply hLmin
            rw [hL, List.mem_filter]
            refine ⟨hn, List.all_eq_true.mpr ?_⟩
            intro c hc
            rw [contains_iff]
            exact hprop c hc
          · intro n hn
            obtain ⟨r, hr⟩ := scc_mem_lookup hscc hlen hn
            refine ⟨r, hr, ?_⟩
            rw [hB n hn, ← hBeq]
            have hname : r.name = n := lookupRule_name hr
            obtain ⟨hlr0, hld0⟩ := hclear r (lookupRule_mem hr)
            by_cases hnL : n = L
            · rw [← hnL]
              rw [lookupRule_update_self _ _ (fun r0 => { r0 with leader := true })
                (fun _ => rfl), lookupRule_markLR, hA n hn, hr]
              simp [hname, hn]
            · rw [lookupRule_update_ne (markLR rulesA scc) L
                (fun r0 => { r0 with leader := true }) (fun _ => rfl) n hnL,
                lookupRule_markLR, hA n hn, hr]
              simp [hname, hn, hnL, hld0]
    · intro name hsc hself r hr
      subst hsc
      have heq := processScc_singleton_eq (g := make_first_graph rules) rulesA hself
      rw [heq] at hpr
      injection hpr with hBeq
      rw [hB name (List.mem_singleton.mpr rfl), ← hBeq]
      rw [lookupRule_update_self _ _
        (fun r0 => { r0 with left_recursive := true, leader := true })
        (fun _ => rfl), hA name (List.mem_singleton.mpr rfl), hr]
      rfl

/-- Witness for C6 on the mutually left-recursive grammar `gMut`, whose
single SCC is `["a", "b"]` with leader `a`. -/
theorem compute_left_recursives_marks_witness :
    (compute_left_recursives gMut =
        .ok (make_first_graph gMut, sccsOf (make_first_graph gMut), gMutOut) ∧
      (∀ r ∈ gMut, r.left_recursive = false ∧ r.leader = false) ∧
      (["a", "b"] : List String) ∈ sccsOf (make_first_graph gMut)) ∧
    ((1 < (["a", "b"] : List String).length →
      ∃ L, L ∈ (["a", "b"] : List String) ∧
        (∀ c ∈ allCycles (make_first_graph gMut) ["a", "b"], L ∈ c) ∧
        (∀ n ∈ (["a", "b"] : List String),
          (∀ c ∈ allCycles (make_first_graph gMut) ["a", "b"], n ∈ c) →
          L = n ∨ strLt L n = true) ∧
        (∀ n ∈ (["a", "b"] : List String), ∃ r, lookupRule gMut n = some r ∧
          lookupRule gMutOut n =
            some { r with left_recursive := true, leader := decide (n = L) })) ∧
    (∀ name, (["a", "b"] : List String) = [name] →
      name ∈ succs (make_first_graph gMut) name →
      ∀ r, lookupRule gMut name = some r →
        lookupRule gMutOut name =
          some { r with left_recursive := true, leader := true })) :=
  ⟨⟨rfl, by decide, by decide⟩,
   @compute_left_recursives_marks gMut (make_first_graph gMut)
     (sccsOf (make_first_graph gMut)) gMutOut rfl (by decide)
     ["a", "b"] (by decide)⟩

/-- C7 (amended): a multi-vertex SCC with an empty leader-candidate set
(no vertex on every elementary cycle) makes grammar processing fail, but
with the built-in `ValueError` of `compute_left_recursives` (line 288 of
legacy/parser_generator.py), not with a `ValidationError`. -/
theorem compute_left_recursives_no_leader
    {rules : List GRule} {scc : List String}
    (hscc : scc ∈ sccsOf (make_first_graph rules))
    (hlen : 1 < scc.length)
    (hempty : scc.filter
      (fun n => (allCycles (make_first_graph rules) scc).all
        (fun c => c.contains n)) = []) :
    compute_left_recursives rules = .error (.valueError lrNoLeaderMsg) := by
  have hne : scc ≠ [] := by
    intro h
    rw [h] at hlen
    simp at hlen
  have hsh := @shrink_error scc (allCycles (make_first_graph rules) scc)
    scc (fun x hx => hx) hne hempty
  have herr : ∀ rs : List GRule,
      processScc (make_first_graph rules) rs scc =
        .error (.valueError lrNoLeaderMsg) :=
    fun rs => processScc_multi_error rs hlen hsh
  unfold compute_left_recursives
  rw [processSccs_error _ rules scc hscc herr]

/-- Witness for C7 on the grammar `gTri`. -/
theorem compute_left_recursives_no_leader_witness :
    ((["a", "b", "c"] : List String) ∈ sccsOf (make_first_graph gTri) ∧
      1 < (["a", "b", "c"] : List String).length ∧
      (["a", "b", "c"] : List String).filter
        (fun n => (allCycles (make_first_graph gTri) ["a", "b", "c"]).all
          (fun c => c.contains n)) = []) ∧
    compute_left_recursives gTri = .error (.valueError lrNoLeaderMsg) :=
  ⟨⟨by decide, by decide, by decide⟩,
   @compute_left_recursives_no_leader gTri ["a", "b", "c"]
     (by decide) (by decide) (by decide)⟩

/-- C7 counterexample: on `gTri` the failure value is the built-in
`ValueError`, not a `ValidationError` as the claim and the spec's error
taxonomy state. -/
theorem compute_left_recursives_valueerror_counterexample :
    compute_left_recursives gTri = .error (.valueError lrNoLeaderMsg) ∧
    ∀ m, compute_left_recursives gTri ≠ .error (.validationError m) := by
  refine ⟨rfl, ?_⟩
  intro m h
  have h3 := h.symm.trans (rfl : compute_left_recursives gTri =
    Except.error (PErr.valueError lrNoLeaderMsg))
  injection h3 with h4
  cases h4

/-! Grammar construction and validation (`stde/pegen/grammar.py`,
`Grammar.__init__` and `_check_duplicate_names`; CheckingVisitor and
`ParserGenerator.__init__` of `stde/pegen/legacy/parser_generator.py`).
The `ValidationError` class lives in `stde/pegen/common.py`, which is not
in the sources; it is modelled as the `validationError` constructor of
`PErr`.  The legacy node classes mirror those of the present
`stde/pegen/grammar.py`, whose iteration order drives the generic
visitor. -/

/-- An extern declaration (grammar.py lines 169-183): a name and an
optional type. -/
structure GExternDecl where
  name : String
  type : Option String
deriving DecidableEq, Repr

/-- A validated grammar (grammar.py `Grammar.__init__` fields): rules,
extern declarations and metas. -/
structure Grammar where
  rules : List GRule
  extern_decls : List GExternDecl
  metas : List (String × Option String)
deriving DecidableEq, Repr

/-- The loop of `_check_duplicate_names` (grammar.py lines 65-71) with its
accumulated `seen_names` set. -/
def checkDupAux : List String → List String → Except PErr Unit
  | [], _ => .ok ()
  | n :: rest, seen =>
    if n ∈ seen then .error (.validationError ("Duplicate name " ++ n))
    else checkDupAux rest (n :: seen)

/-- `_check_duplicate_names` over a name list. -/
def check_duplicate_names (names : List String) : Except PErr Unit :=
  checkDupAux names []

/-- `Grammar.__init__` (grammar.py lines 77-87): check the chained rule
and extern names for duplicates, then build the grammar. -/
def mkGrammar (rules : List GRule) (ex : List GExternDecl)
    (metas : List (String × Option String)) : Except PErr Grammar :=
  match check_duplicate_names
      (rules.map (fun r => r.name) ++ ex.map (fun e => e.name)) with
  | .error e => .error e
  | .ok _ => .ok ⟨rules, ex, metas⟩

/-- Python `name.startswith(an underscore)` on a plain string (an empty
name is falsy, and also starts with no underscore, so the truthiness
guard of the visitor collapses into this test). -/
def strStartsUnderscore (s : String) : Bool :=
  match s.data with
  | [] => false
  | c :: _ => c = '_'

/-- `CheckingVisitor`'s traversal of a node (parser_generator.py lines
41-49 with `GrammarVisitor.generic_visit`): a name leaf must be a known
item or token, a named top-level item must not start with an underscore;
all other nodes recurse along their iteration order — a Gather iterates
only its element node (grammar.py line 399), so its separator is not
visited. -/
def checkNode (items tokens : List String) : GNode → Except PErr Unit
  | .NameLeaf v =>
    if v ∈ items ∨ v ∈ tokens then .ok ()
    else .error (.validationError ("Unknown name " ++ v))
  | .StringLeaf _ => .ok ()
  | .Group x => checkNode items tokens x
  | .Opt x => checkNode items tokens x
  | .Repeat0 x => checkNode items tokens x
  | .Repeat1 x => checkNode items tokens x
  | .Gather _ x => checkNode items tokens x
  | .PositiveLookahead x => checkNode items tokens x
  | .NegativeLookahead x => checkNode items tokens x
  | .Forced x => checkNode items tokens x
  | .Cut => .ok ()
  | .Rhs alts => checkNode items tokens alts
  | .AltsNil => .ok ()
  | .AltsCons a rest =>
    match checkNode items tokens a with
    | .error e => .error e
    | .ok _ => checkNode items tokens rest
  | .Alt its => checkNode items tokens its
  | .ItemsNil => .ok ()
  | .ItemsCons i rest =>
    match checkNode items tokens i with
    | .error e => .error e
    | .ok _ => checkNode items tokens rest
  | .TLI nm it _ =>
    match nm with
    | some s =>
      if strStartsUnderscore s then
        .error (.validationError
          ("Variable names cannot start with underscore (" ++ s ++ ")"))
      else checkNode items tokens it
    | none => checkNode items tokens it

/-- `visit_Rule` (parser_generator.py lines 36-39): reserved-prefix check
on the rule name, then the right-hand side. -/
def checkRule (items tokens : List String) (r : GRule) : Except PErr Unit :=
  if strStartsUnderscore r.name then
    .error (.validationError
      ("Rule names cannot start with underscore (" ++ r.name ++ ")"))
  else checkNode items tokens r.rhs

/-- `visit_ExternDecl` (parser_generator.py lines 51-53): reserved-prefix
check on the declaration name. -/
def checkExternDecl (e : GExternDecl) : Except PErr Unit :=
  if strStartsUnderscore e.name then
    .error (.validationError
      ("Variable names cannot start with underscore (" ++ e.name ++ ")"))
  else .ok ()

/-- Sequential visit of all rules. -/
def validateRules (items tokens : List String) : List GRule → Except PErr Unit
  | [] => .ok ()
  | r :: rest =>
    match checkRule items tokens r with
    | .error e => .error e
    | .ok _ => validateRules items tokens rest

/-- Sequential visit of all extern declarations. -/
def validateExterns : List GExternDecl → Except PErr Unit
  | [] => .ok ()
  | e :: rest =>
    match checkExternDecl e with
    | .error er => .error er
    | .ok _ => validateExterns rest

/-- The key set of `grammar.items` (rules, then extern declarations, as
the dict union enumerates them). -/
def itemNames (g : Grammar) : List String :=
  g.rules.map (fun r => r.name) ++ g.extern_decls.map (fun e => e.name)

/-- `validate_items` (parser_generator.py lines 56-58): the checking
visitor over all items in dict order. -/
def validate_items (g : Grammar) (tokens : List String) : Except PErr Unit :=
  match validateRules (itemNames g) tokens g.rules with
  | .error e => .error e
  | .ok _ => validateExterns g.extern_decls

/-- `"trailer" in grammar.metas`. -/
def hasMeta (g : Grammar) (k : String) : Bool :=
  g.metas.any (fun p => p.1 == k)

/-- `"start" in self.rules`. -/
def hasRule (g : Grammar) (k : String) : Bool :=
  g.rules.any (fun r => r.name == k)

/-- `ParserGenerator.__init__` (parser_generator.py lines 78-88): validate
the items, require a trailer meta or a start rule, then run the nullable
and left-recursion analyses on the rules. -/
def parserGeneratorInit (g : Grammar) (tokens : List String) :
    Except PErr (Graph × List (List String) × List GRule) :=
  match validate_items g tokens with
  | .error e => .error e
  | .ok _ =>
    if !hasMeta g "trailer" && !hasRule g "start" then
      .error (.validationError "Grammar without a trailer must have a 'start' rule")
    else
      compute_left_recursives (compute_nullables g.rules)

/-- Grammar construction followed by `ParserGenerator.__init__`: the whole
validation path checked by the claim. -/
def grammarPipeline (rules : List GRule) (ex : List GExternDecl)
    (metas : List (String × Option String)) (tokens : List String) :
    Except PErr (Graph × List (List String) × List GRule) :=
  match mkGrammar rules ex metas with
  | .error e => .error e
  | .ok g => parserGeneratorInit g tokens

theorem checkDupAux_ok : ∀ (names seen : List String),
    checkDupAux names seen = .ok () ↔
      (names.Nodup ∧ ∀ n ∈ names, n ∉ seen) := by
  intro names
  induction names with
  | nil =>
    intro seen
    simp [checkDupAux]
  | cons n rest ih =>
    intro seen
    simp only [checkDupAux]
    by_cases hn : n ∈ seen
    · rw [if_pos hn]
      constructor
      · intro h; cases h
      · intro ⟨_, h2⟩
        exact absurd hn (h2 n (List.mem_cons_self n rest))
    · rw [if_neg hn, ih (n :: seen)]
      constructor
      · intro ⟨h1, h2⟩
        refine ⟨List.nodup_cons.mpr ⟨?_, h1⟩, ?_⟩
        · intro hmem
          exact (h2 n hmem) (List.mem_cons_self n seen)
        · intro m hm
          rcases List.mem_cons.mp hm with he | hmem
          · rw [he]; exact hn
          · intro hms
            exact (h2 m hmem) (List.mem_cons_of_mem n hms)
      · intro ⟨h1, h2⟩
        obtain ⟨hnr, h1r⟩ := List.nodup_cons.mp h1
        refine ⟨h1r, ?_⟩
        intro m hm hmc
        rcases List.mem_cons.mp hmc with he | hms
        · rw [he] at hm
          exact hnr hm
        · exact (h2 m (List.mem_cons_of_mem n hm)) hms

theorem checkDupAux_error_val : ∀ (names seen : List String) (e : PErr),
    checkDupAux names seen = .error e → ∃ m, e = .validationError m := by
  intro names
  induction names with
  | nil => intro seen e h; cases h
  | cons n rest ih =>
    intro seen e h
    simp only [checkDupAux] at h
    split at h
    · injection h with h2
      exact ⟨_, h2.symm⟩
    · exact ih _ e h

theorem checkNode_error_val (items tokens : List String) :
    ∀ (x : GNode) (e : PErr), checkNode items tokens x = .error e →
      ∃ m, e = .validationError m := by
  intro x
  induction x with
  | NameLeaf v =>
    intro e h
    simp only [checkNode] at h
    split at h
    · cases h
    · injection h with h2
      exact ⟨_, h2.symm⟩
  | StringLeaf v => intro e h; cases h
  | Group x ih => intro e h; exact ih e h
  | Opt x ih => intro e h; exact ih e h
  | Repeat0 x ih => intro e h; exact ih e h
  | Repeat1 x ih => intro e h; exact ih e h
  | Gather s x ihs ih => intro e h; exact ih e h
  | PositiveLookahead x ih => intro e h; exact ih e h
  | NegativeLookahead x ih => intro e h; exact ih e h
  | Forced x ih => intro e h; exact ih e h
  | Cut => intro e h; cases h
  | Rhs x ih => intro e h; exact ih e h
  | AltsNil => intro e h; cases h
  | AltsCons a rest iha ihrest =>
    intro e h
    simp only [checkNode] at h
    split at h
    · rename_i e2 heq
      injection h with h2
      exact h2 ▸ iha e2 heq
    · exact ihrest e h
  | Alt x ih => intro e h; exact ih e h
  | ItemsNil => intro e h; cases h
  | ItemsCons i rest ihi ihrest =>
    intro e h
    simp only [checkNode] at h
    split at h
    · rename_i e2 heq
      injection h with h2
      exact h2 ▸ ihi e2 heq
    · exact ihrest e h
  | TLI nm it fl ih =>
    intro e h
    rcases nm with _ | s
    · exact ih e h
    · have h2 : (if strStartsUnderscore s then
          Except.error (PErr.validationError
            ("Variable names cannot start with underscore (" ++ s ++ ")"))
        else checkNode items tokens it) = Except.error e := h
      split at h2
      · injection h2 with h3
        exact ⟨_, h3.symm⟩
      · exact ih e h2

theorem checkRule_error_val {items tokens : List String} {r : GRule} {e : PErr}
    (h : checkRule items tokens r = .error e) : ∃ m, e = .validationError m := by
  unfold checkRule at h
  split at h
  · injection h with h2
    exact ⟨_, h2.symm⟩
  · exact checkNode_error_val items tokens r.rhs e h

theorem checkExternDecl_error_val {d : GExternDecl} {e : PErr}
    (h : checkExternDecl d = .error e) : ∃ m, e = .validationError m := by
  unfold checkExternDecl at h
  split at h
  · injection h with h2
    exact ⟨_, h2.symm⟩
  · cases h

theorem validateRules_error_val {items tokens : List String} :
    ∀ (rs : List GRule) (e : PErr),
      validateRules items tokens rs = .error e → ∃ m, e = .validationError m := by
  intro rs
  induction rs with
  | nil => intro e h; cases h
  | cons r rest ih =>
    intro e h
    simp only [validateRules] at h
    split at h
    · rename_i e2 heq
      injection h with h2
      exact h2 ▸ checkRule_error_val heq
    · exact ih e h

theorem validateExterns_error_val :
    ∀ (ds : List GExternDecl) (e : PErr),
      validateExterns ds = .error e → ∃ m, e = .validationError m := by
  intro ds
  induction ds with
  | nil => intro e h; cases h
  | cons d rest ih =>
    intro e h
    simp only [validateExterns] at h
    split at h
    · rename_i e2 heq
      injection h with h2
      exact h2 ▸ checkExternDecl_error_val heq
    · exact ih e h

theorem validate_items_error_val {g : Grammar} {tokens : List String} {e : PErr}
    (h : validate_items g tokens = .error e) : ∃ m, e = .validationError m := by
  unfold validate_items at h
  split at h
  · rename_i e2 heq
    injection h with h2
    exact h2 ▸ validateRules_error_val g.rules e2 heq
  · exact validateExterns_error_val g.extern_decls e h

/-- C8 (amended): duplicate names across rules and extern declarations
make grammar construction fail with a validation error; a grammar that
passes the pipeline has a `start` rule or a `trailer` meta, and one with
neither always fails with a validation error.  (No part of the pipeline
requires at least one rule; see the counterexample.) -/
theorem grammar_validation :
    (∀ (rules : List GRule) (ex : List GExternDecl)
        (metas : List (String × Option String)) (tokens : List String),
      ¬ (rules.map (fun r => r.name) ++ ex.map (fun e => e.name)).Nodup →
      ∃ m, grammarPipeline rules ex metas tokens =
        .error (.validationError m)) ∧
    (∀ (rules : List GRule) (ex : List GExternDecl)
        (metas : List (String × Option String)) (tokens : List String)
        (out : Graph × List (List String) × List GRule),
      grammarPipeline rules ex metas tokens = .ok out →
      hasRule ⟨rules, ex, metas⟩ "start" = true ∨
        hasMeta ⟨rules, ex, metas⟩ "trailer" = true) ∧
    (∀ (rules : List GRule) (ex : List GExternDecl)
        (metas : List (String × Option String)) (tokens : List String),
      hasRule ⟨rules, ex, metas⟩ "start" = false →
      hasMeta ⟨rules, ex, metas⟩ "trailer" = false →
      ∃ m, grammarPipeline rules ex metas tokens =
        .error (.validationError m)) := by
  refine ⟨?_, ?_, ?_⟩
  · intro rules ex metas tokens hdup
    rcases hc : check_duplicate_names
        (rules.map (fun r => r.name) ++ ex.map (fun e => e.name)) with e | u
    · obtain ⟨m, hm⟩ := checkDupAux_error_val _ [] e hc
      refine ⟨m, ?_⟩
      unfold grammarPipeline mkGrammar
      rw [hc, hm]
    · exfalso
      apply hdup
      have hok : checkDupAux
          (rules.map (fun r => r.name) ++ ex.map (fun e => e.name)) [] =
          .ok () := by
        cases u
        exact hc
      exact ((checkDupAux_ok _ []).mp hok).1
  · intro rules ex metas tokens out hok
    unfold grammarPipeline at hok
    rcases hc : mkGrammar rules ex metas with e | g
    · rw [hc] at hok
      have h2 : (Except.error e :
          Except PErr (Graph × List (List String) × List GRule)) =
          .ok out := hok
      cases h2
    · rw [hc] at hok
      have hg : g = ⟨rules, ex, metas⟩ := by
        unfold mkGrammar at hc
        split at hc
        · cases hc
        · injection hc with h3
          exact h3.symm
      have h2 : parserGeneratorInit g tokens = .ok out := hok
      unfold parserGeneratorInit at h2
      rcases hv : validate_items g tokens with e2 | u2
      · rw [hv] at h2
        have h3 : (Except.error e2 :
            Except PErr (Graph × List (List String) × List GRule)) =
            .ok out := h2
        cases h3
      · rw [hv] at h2
        have h3 : (if !hasMeta g "trailer" && !hasRule g "start" then
            Except.error (PErr.validationError
              "Grammar without a trailer must have a 'start' rule")
          else compute_left_recursives (compute_nullables g.rules)) =
          .ok out := h2
        split at h3
        · cases h3
        · rename_i hcond
          rw [hg] at hcond
          cases hm : hasMeta (⟨rules, ex, metas⟩ : Grammar) "trailer" with
          | true => exact Or.inr rfl
          | false =>
            cases hr : hasRule (⟨rules, ex, metas⟩ : Grammar) "start" with
            | true => exact Or.inl rfl
            | false =>
              exfalso
              apply hcond
              rw [hm, hr]
              rfl
  · intro rules ex metas tokens hstart htrail
    rcases hc : mkGrammar rules ex metas with e | g
    · have hval : ∃ m, e = .validationError m := by
        unfold mkGrammar at hc
        split at hc
        · rename_i e2 heq
          injection hc with h3
          exact h3 ▸ checkDupAux_error_val _ [] e2 heq
        · cases hc
      obtain ⟨m, hm⟩ := hval
      refine ⟨m, ?_⟩
      unfold grammarPipeline
      rw [hc, hm]
    · have hg : g = ⟨rules, ex, metas⟩ := by
        unfold mkGrammar at hc
        split at hc
        · cases hc
        · injection hc with h3
          exact h3.symm
      have hmain : ∃ m, parserGeneratorInit g tokens =
          .error (.validationError m) := by
        rcases hv : validate_items g tokens with e2 | u2
        · obtain ⟨m, hm⟩ := validate_items_error_val hv
          refine ⟨m, ?_⟩
          unfold parserGeneratorInit
          rw [hv, hm]
        · refine ⟨"Grammar without a trailer must have a 'start' rule", ?_⟩
          unfold parserGeneratorInit
          rw [hv]
          show (if !hasMeta g "trailer" && !hasRule g "start" then
              Except.error (PErr.validationError
                "Grammar without a trailer must have a 'start' rule")
            else compute_left_recursives (compute_nullables g.rules)) =
            Except.error (PErr.validationError
              "Grammar without a trailer must have a 'start' rule")
          rw [if_pos (by rw [hg, htrail, hstart]; rfl)]
      obtain ⟨m, hm⟩ := hmain
      refine ⟨m, ?_⟩
      unfold grammarPipeline
      rw [hc]
      exact hm

/-- Grammar with the rule name `a` given twice. -/
def gDup : List GRule :=
  [⟨"a", none, rhs1 (alt1 (tSL "x")), false, false, false, false⟩,
   ⟨"a", none, rhs1 (alt1 (tSL "y")), false, false, false, false⟩]

/-- Grammar with the single rule `start: "x"`. -/
def gStart : List GRule :=
  [⟨"start", none, rhs1 (alt1 (tSL "x")), false, false, false, false⟩]

/-- C8 counterexample: a grammar with no rules at all but a `trailer` meta
passes the whole construction and validation pipeline, refuting the claim
that a grammar passing validation contains at least one rule. -/
theorem grammar_no_rules_passes_counterexample :
    grammarPipeline [] [] [("trailer", some "t")] [] = .ok ([], [], []) ∧
    ([] : List GRule).length = 0 :=
  ⟨rfl, rfl⟩

/-- Witness for C8: duplicate names (`gDup`) fail with a validation
error; `gStart` passes and has a `start` rule; `gMut` has neither `start`
nor `trailer` and fails with a validation error. -/
theorem grammar_validation_witness :
    (¬ ((gDup.map (fun r => r.name)) ++
        (([] : List GExternDecl).map (fun e => e.name))).Nodup ∧
      ∃ m, grammarPipeline gDup [] [] [] = .error (.validationError m)) ∧
    ((∃ out, grammarPipeline gStart [] [] [] = .ok out) ∧
      (hasRule ⟨gStart, [], []⟩ "start" = true ∨
        hasMeta ⟨gStart, [], []⟩ "trailer" = true)) ∧
    (hasRule ⟨gMut, [], []⟩ "start" = false ∧
      hasMeta ⟨gMut, [], []⟩ "trailer" = false ∧
      ∃ m, grammarPipeline gMut [] [] [] = .error (.validationError m)) :=
  ⟨⟨by decide, grammar_validation.1 gDup [] [] [] (by decide)⟩,
   ⟨⟨_, rfl⟩, grammar_validation.2.1 gStart [] [] [] _ rfl⟩,
   ⟨by decide, by decide,
    grammar_validation.2.2 gMut [] [] [] (by decide) (by decide)⟩⟩
